import Mathlib

/-!
Verification of the download engine of a BitTorrent client.

This file shallowly embeds the parts of the Go sources relevant to the
claims under study and proves (or refutes) each claim about the embedding:

* `internal/peer/peer.go` — per-peer protocol state machine
* `internal/download/coordinator.go` — global request map of the coordinator
* `internal/piece/manager.go` — piece/block store, SHA-1 gate, bitfield
* `internal/piece/strategy.go` — piece-selection strategies
* `internal/disk` (disk manager) — piece-to-file byte mapping
* `internal/bencode` and `internal/torrent` — bencode codec and info-hash

Bytes are modelled as `Nat` (values kept < 256 by the operations involved);
byte strings as `List Nat`.  Go slices are Lean lists; a Go `map` is an
association list (with a note wherever key order matters).  Cryptographic
hashing is a parameter of the functions that use it, so theorems quantify
over the hash function.  Go's `time.Time` is a `Nat` tick count.
-/

namespace BT

/-! ### Bitfield primitives

Shared by `peer.go`, `manager.go` and `strategy.go`: bit `i` lives in byte
`i/8` under mask `1 <<< (7 - i % 8)`. -/

/-- Test bit `i` of a big-endian bitfield. Mirrors the common Go pattern
`bf[i/8] & (1 << (7 - i%8)) != 0`, returning `false` when byte `i/8` is out
of range (as the Go code checks `byteIndex >= len(bitfield)` first). -/
def bitGet (bf : List Nat) (i : Nat) : Bool :=
  if i / 8 ≥ bf.length then false
  else (bf.getD (i / 8) 0) &&& (1 <<< (7 - i % 8)) ≠ 0

/-- Set bit `i` of a big-endian bitfield (`bf[i/8] |= 1 << (7 - i%8)`),
leaving the bitfield unchanged when byte `i/8` is out of range. -/
def bitSet (bf : List Nat) (i : Nat) : List Nat :=
  if i / 8 ≥ bf.length then bf
  else bf.set (i / 8) ((bf.getD (i / 8) 0) ||| (1 <<< (7 - i % 8)))

/-! ### Peer session state machine — `internal/peer/peer.go`

The four protocol booleans and the remote availability bitfield, together
with the message handler `handleMessage` (peer.go:271-309).  The remote
bitfield is `Option (List Nat)`: `none` models the Go `nil` slice before any
BITFIELD message. Fields of the Go struct that no claim touches (conn,
ids, channels, timestamps) are omitted. -/

/-- The four protocol booleans (peer.go `PeerState`). -/
structure PeerState where
  amChoking : Bool
  amInterested : Bool
  peerChoking : Bool
  peerInterested : Bool
  deriving DecidableEq, Repr

/-- `NewPeerState` (peer.go:20): start (choking, not interested, choked, not interested). -/
def newPeerState : PeerState :=
  { amChoking := true, amInterested := false, peerChoking := true, peerInterested := false }

/-- The per-session state a claim can observe: protocol booleans and the
remote availability bitfield. -/
structure Peer where
  state : PeerState
  bitfield : Option (List Nat)
  deriving DecidableEq, Repr

/-- A fresh session after handshake: default state, no known bitfield
(peer.go `NewPeer`). -/
def newPeer : Peer := { state := newPeerState, bitfield := none }

/-- The wire messages whose handling the claims mention. -/
inductive Msg where
  | choke
  | unchoke
  | interested
  | notInterested
  | have (index : Nat)
  | bitfieldMsg (bf : List Nat)
  deriving DecidableEq, Repr

/-- `setPieceUnsafe` (peer.go:312-325): returns unchanged when the bitfield
is `nil` or byte `index/8` is out of range; otherwise ORs the mask in. -/
def setPieceUnsafe (p : Peer) (index : Nat) : Peer :=
  match p.bitfield with
  | none => p
  | some bf => { p with bitfield := some (bitSet bf index) }

/-- `handleMessage` (peer.go:271-309): state-updating part for control
messages.  (`ParseHave`/`ParseBitfield` payload decoding is taken as done;
the claims are about the state updates.) -/
def handleMessage (p : Peer) (m : Msg) : Peer :=
  match m with
  | .choke => { p with state := { p.state with peerChoking := true } }
  | .unchoke => { p with state := { p.state with peerChoking := false } }
  | .interested => { p with state := { p.state with peerInterested := true } }
  | .notInterested => { p with state := { p.state with peerInterested := false } }
  | .have i => setPieceUnsafe p i
  | .bitfieldMsg bf => { p with bitfield := some bf }

/-- `HasPiece` (peer.go:136-152): `false` when the bitfield is `nil` or the
byte is out of range, else the bit test. -/
def hasPiece (p : Peer) (index : Nat) : Bool :=
  match p.bitfield with
  | none => false
  | some bf => bitGet bf index

/-- `Interested()` (peer.go:356-362): sets `amInterested` (and sends the
message; the send is not part of the observed state). -/
def sendInterested (p : Peer) : Peer :=
  { p with state := { p.state with amInterested := true } }

/-- `CanDownload` (peer.go:404-407). -/
def canDownload (p : Peer) : Bool :=
  !p.state.peerChoking && p.state.amInterested

/-! ### Download coordinator — `internal/download/coordinator.go`

The coordinator's `activeRequests` map is keyed by the string
`fmt.Sprintf("%d:%d", pieceIndex, begin)`; piece indices and offsets are
non-negative here, so the key is in bijection with the pair
`(pieceIndex, begin)` and we key the model by that pair.  The Go map is an
association list; `Coordinator` invariants below show its keys stay
distinct, so the list is a faithful map model.  Peers are identified by
their address string. -/

/-- `RequestInfo` (coordinator.go:30-36); `RequestedAt` is a tick count. -/
structure RequestInfo where
  pieceIndex : Nat
  «begin» : Nat
  length : Nat
  requestedAt : Nat
  peer : String
  deriving DecidableEq, Repr

/-- One entry of `PieceManager.GetBlockRequests`. -/
structure BlockReq where
  «begin» : Nat
  length : Nat
  deriving DecidableEq, Repr

/-- The request map: `(pieceIndex, begin) ↦ RequestInfo`. -/
abbrev ReqMap := List ((Nat × Nat) × RequestInfo)

/-- `maxRequestsPerPeer` (coordinator.go:66). -/
def maxRequestsPerPeer : Nat := 10

/-- `requestTimeout` (coordinator.go:67), in seconds. -/
def requestTimeout : Nat := 15

/-- `countActiveRequestsForPeer` (coordinator.go:242-250). -/
def countActiveRequestsForPeer (reqs : ReqMap) (p : String) : Nat :=
  (reqs.filter (fun e => e.2.peer == p)).length

/-- The request loop of `requestPiecesFromPeer` (coordinator.go:204-238):
walk the block requests; stop when the per-peer budget is used up; skip a
block whose `(pieceIndex, begin)` key is already in `activeRequests`;
otherwise send the REQUEST and insert the entry.  Returns the new map and
the keys actually sent.  (The model takes the wire send as succeeding; a
failed `RequestPiece` merely skips the insert in the source.) -/
def requestLoop (p : String) (pieceIndex now : Nat) :
    List BlockReq → Nat → ReqMap → List (Nat × Nat) → ReqMap × List (Nat × Nat)
  | [], _, reqs, sent => (reqs, sent)
  | br :: rest, budget, reqs, sent =>
    if budget = 0 then (reqs, sent)
    else if (reqs.lookup (pieceIndex, br.begin)).isSome then
      requestLoop p pieceIndex now rest budget reqs sent
    else
      requestLoop p pieceIndex now rest (budget - 1)
        (reqs ++ [((pieceIndex, br.begin),
          { pieceIndex := pieceIndex, «begin» := br.begin, length := br.length,
            requestedAt := now, peer := p })])
        (sent ++ [(pieceIndex, br.begin)])

/-- `requestPiecesFromPeer` (coordinator.go:160-239), request-map part:
return unchanged when the peer is already at its in-flight limit, else run
the request loop with the remaining budget for the piece the selector
chose. -/
def requestPiecesFromPeer (reqs : ReqMap) (p : String) (pieceIndex : Nat)
    (blockRequests : List BlockReq) (now : Nat) : ReqMap × List (Nat × Nat) :=
  let activeCount := countActiveRequestsForPeer reqs p
  if activeCount ≥ maxRequestsPerPeer then (reqs, [])
  else requestLoop p pieceIndex now blockRequests (maxRequestsPerPeer - activeCount) reqs []

/-- `HandlePieceReceived` (coordinator.go:285-298): delete the matching
entry (warn-only when absent). -/
def handlePieceReceived (reqs : ReqMap) (pieceIndex «begin» : Nat) : ReqMap :=
  reqs.filter (fun e => e.1 ≠ (pieceIndex, «begin»))

/-- `cleanupTimedOutRequests` (coordinator.go:270-282): drop every entry
older than `requestTimeout`. -/
def cleanupTimedOutRequests (reqs : ReqMap) (now : Nat) : ReqMap :=
  reqs.filter (fun e => ¬ now - e.2.requestedAt > requestTimeout)

/-! The combined system of the coordinator's request map and the per-peer
sessions, as a transition relation.  Steps are exactly the operations the
source performs on these pieces of state:

* a session's receive loop handling a wire message (`handleMessage`);
* the coordinator sending INTERESTED through `EnsureInterested`;
* a coordination cycle issuing requests to a peer with `CanDownload()`
  true (coordinator.go:144-148);
* `HandlePieceReceived` on block arrival;
* the 10-second timeout sweep.

Notably there is no step that clears requests when a CHOKE arrives: the
source's `handleMessage` only flips `peerChoking` (peer.go:281-282). -/

/-- Coordinator + peer-pool state observed by the claims. -/
structure Sys where
  peers : List (String × Peer)
  reqs : ReqMap
  deriving Repr, DecidableEq

/-- Update one peer of the pool in place. -/
def Sys.updPeer (s : Sys) (pid : String) (f : Peer → Peer) : Sys :=
  { s with peers := s.peers.map (fun e => if e.1 = pid then (e.1, f e.2) else e) }

/-- One step of the system (each constructor is one source operation). -/
inductive Step : Sys → Sys → Prop where
  | peerMsg (s : Sys) (pid : String) (m : Msg) :
      Step s (s.updPeer pid (fun p => handleMessage p m))
  | interested (s : Sys) (pid : String) :
      Step s (s.updPeer pid sendInterested)
  | issue (s : Sys) (pid : String) (p : Peer) (pieceIndex now : Nat)
      (brs : List BlockReq)
      (hmem : (pid, p) ∈ s.peers) (hdl : canDownload p = true) :
      Step s { s with reqs := (requestPiecesFromPeer s.reqs pid pieceIndex brs now).1 }
  | pieceReceived (s : Sys) (pieceIndex «begin» : Nat) :
      Step s { s with reqs := handlePieceReceived s.reqs pieceIndex «begin» }
  | timeoutSweep (s : Sys) (now : Nat) :
      Step s { s with reqs := cleanupTimedOutRequests s.reqs now }

/-- States reachable from a start with fresh sessions and an empty request
map. -/
inductive Reachable : Sys → Prop where
  | init (pids : List String) :
      Reachable { peers := pids.map (fun pid => (pid, newPeer)), reqs := [] }
  | step {s s' : Sys} : Reachable s → Step s s' → Reachable s'

/-! #### Request-map lemmas -/

lemma lookup_eq_none_iff_not_mem_keys (l : ReqMap) (k : Nat × Nat) :
    l.lookup k = none ↔ k ∉ l.map Prod.fst := by
  induction l with
  | nil => simp
  | cons e t ih =>
    simp only [List.lookup, List.map_cons, List.mem_cons]
    by_cases h : k = e.1
    · simp [h]
    · have hbeq : (k == e.1) = false := by simpa [beq_iff_eq] using h
      simp [hbeq, ih, h]

/-- Everything `requestLoop` adds: the key list grows by a block `delta` of
fresh keys, pairwise distinct and absent from the incoming map, and those
are exactly the keys sent. -/
lemma requestLoop_delta (p : String) (pieceIndex now : Nat) :
    ∀ (brs : List BlockReq) (budget : Nat) (reqs : ReqMap) (sent : List (Nat × Nat)),
    ∃ delta : List (Nat × Nat),
      (requestLoop p pieceIndex now brs budget reqs sent).1.map Prod.fst
        = reqs.map Prod.fst ++ delta ∧
      (requestLoop p pieceIndex now brs budget reqs sent).2 = sent ++ delta ∧
      delta.Nodup ∧ (∀ k ∈ delta, k ∉ reqs.map Prod.fst) := by
  intro brs
  induction brs with
  | nil =>
    intro budget reqs sent
    refine ⟨[], ?_, ?_, ?_, ?_⟩ <;> simp [requestLoop]
  | cons br rest ih =>
    intro budget reqs sent
    by_cases hb : budget = 0
    · refine ⟨[], ?_, ?_, ?_, ?_⟩ <;> simp [requestLoop, hb]
    · by_cases hl : (reqs.lookup (pieceIndex, br.begin)).isSome
      · have heq : requestLoop p pieceIndex now (br :: rest) budget reqs sent
            = requestLoop p pieceIndex now rest budget reqs sent := by
          simp [requestLoop, hb, hl]
        rw [heq]
        exact ih budget reqs sent
      · have hnone : reqs.lookup (pieceIndex, br.begin) = none := by
          cases h : reqs.lookup (pieceIndex, br.begin) with
          | none => rfl
          | some v => rw [h] at hl; simp at hl
        have hkey : (pieceIndex, br.begin) ∉ reqs.map Prod.fst :=
          (lookup_eq_none_iff_not_mem_keys reqs _).mp hnone
        have heq : requestLoop p pieceIndex now (br :: rest) budget reqs sent
            = requestLoop p pieceIndex now rest (budget - 1)
              (reqs ++ [((pieceIndex, br.begin),
                { pieceIndex := pieceIndex, «begin» := br.begin, length := br.length,
                  requestedAt := now, peer := p })])
              (sent ++ [(pieceIndex, br.begin)]) := by
          simp [requestLoop, hb, hl]
        rw [heq]
        obtain ⟨delta, h1, h2, h3, h4⟩ := ih (budget - 1)
          (reqs ++ [((pieceIndex, br.begin),
            { pieceIndex := pieceIndex, «begin» := br.begin, length := br.length,
              requestedAt := now, peer := p })])
          (sent ++ [(pieceIndex, br.begin)])
        refine ⟨(pieceIndex, br.begin) :: delta, ?_, ?_, ?_, ?_⟩
        · rw [h1]; simp
        · rw [h2]; simp
        · refine List.nodup_cons.mpr ⟨fun hc => ?_, h3⟩
          exact h4 _ hc (by simp)
        · intro k hk
          rcases List.mem_cons.mp hk with h | h
          · exact h ▸ hkey
          · exact fun hm => h4 k h (by simp [hm])

/-- Keys stay pairwise distinct through `requestPiecesFromPeer`. -/
lemma requestPiecesFromPeer_nodup (reqs : ReqMap) (p : String) (pieceIndex : Nat)
    (brs : List BlockReq) (now : Nat)
    (h : (reqs.map Prod.fst).Nodup) :
    ((requestPiecesFromPeer reqs p pieceIndex brs now).1.map Prod.fst).Nodup := by
  unfold requestPiecesFromPeer
  by_cases hc : countActiveRequestsForPeer reqs p ≥ maxRequestsPerPeer
  · simpa [hc]
  · simp only [hc, if_false]
    obtain ⟨delta, h1, _, h3, h4⟩ := requestLoop_delta p pieceIndex now brs
      (maxRequestsPerPeer - countActiveRequestsForPeer reqs p) reqs []
    rw [h1]
    exact List.Nodup.append h h3 (fun k hk hk' => h4 k hk' hk)

/-- A filtered map's keys stay pairwise distinct. -/
lemma filter_keys_nodup (l : ReqMap) (f : (Nat × Nat) × RequestInfo → Bool)
    (h : (l.map Prod.fst).Nodup) : ((l.filter f).map Prod.fst).Nodup :=
  List.Nodup.sublist ((List.filter_sublist l).map Prod.fst) h

/-- C1, part 1: in every reachable state the request map has at most one
entry per `(piece, offset)` key. -/
lemma reachable_keys_nodup : ∀ s : Sys, Reachable s → (s.reqs.map Prod.fst).Nodup := by
  intro s h
  induction h with
  | init pids => simp
  | step _ hstep ih =>
    cases hstep with
    | peerMsg pid m => exact ih
    | interested pid => exact ih
    | issue pid p pieceIndex now brs hmem hdl =>
      exact requestPiecesFromPeer_nodup _ _ _ _ _ ih
    | pieceReceived pieceIndex b => exact filter_keys_nodup _ _ ih
    | timeoutSweep now => exact filter_keys_nodup _ _ ih

/-- C1 — at-most-one outstanding request per block, globally.
(1) every reachable request map is keyed at most once per
`(piece, offset)`; (2) `requestPiecesFromPeer` sends a REQUEST for a key
only if the incoming map has no entry for it (and never sends the same key
twice in one call); (3) `HandlePieceReceived` removes the matching entry;
(4) the timeout sweep keeps exactly the entries no older than
`requestTimeout`. -/
theorem C1_at_most_one_outstanding_request :
    (∀ s : Sys, Reachable s → (s.reqs.map Prod.fst).Nodup) ∧
    (∀ (reqs : ReqMap) (p : String) (pieceIndex : Nat) (brs : List BlockReq) (now : Nat),
      (∀ k ∈ (requestPiecesFromPeer reqs p pieceIndex brs now).2, reqs.lookup k = none) ∧
      (requestPiecesFromPeer reqs p pieceIndex brs now).2.Nodup) ∧
    (∀ (reqs : ReqMap) (pieceIndex b : Nat),
      (handlePieceReceived reqs pieceIndex b).lookup (pieceIndex, b) = none) ∧
    (∀ (reqs : ReqMap) (now : Nat) (e : (Nat × Nat) × RequestInfo),
      e ∈ cleanupTimedOutRequests reqs now ↔
        e ∈ reqs ∧ now - e.2.requestedAt ≤ requestTimeout) := by
  refine ⟨reachable_keys_nodup, ?_, ?_, ?_⟩
  · intro reqs p pieceIndex brs now
    unfold requestPiecesFromPeer
    by_cases hc : countActiveRequestsForPeer reqs p ≥ maxRequestsPerPeer
    · simp [hc]
    · simp only [hc, if_false]
      obtain ⟨delta, _, h2, h3, h4⟩ := requestLoop_delta p pieceIndex now brs
        (maxRequestsPerPeer - countActiveRequestsForPeer reqs p) reqs []
      rw [h2]
      exact ⟨fun k hk => (lookup_eq_none_iff_not_mem_keys reqs k).mpr (h4 k (by simpa using hk)),
        by simpa using h3⟩
  · intro reqs pieceIndex b
    rw [lookup_eq_none_iff_not_mem_keys]
    intro hmem
    obtain ⟨e, he, heq⟩ := List.mem_map.mp hmem
    have h2 := (List.mem_filter.mp he).2
    simp [heq] at h2
  · intro reqs now e
    simp [cleanupTimedOutRequests, List.mem_filter]

/-- A sample request-map entry used by witnesses below. -/
def sampleReq : RequestInfo :=
  { pieceIndex := 3, «begin» := 16384, length := 16384, requestedAt := 0, peer := "p" }

/-- C1 witness: the conjuncts applied at concrete inputs. -/
theorem C1_at_most_one_outstanding_request_witness :
    ((Sys.mk [("p", newPeer)] []).reqs.map Prod.fst).Nodup ∧
    (handlePieceReceived [((3, 16384), sampleReq)] 3 16384).lookup (3, 16384) = none := by
  constructor
  · exact C1_at_most_one_outstanding_request.1 (Sys.mk [("p", newPeer)] [])
      (by simpa using Reachable.init ["p"])
  · exact C1_at_most_one_outstanding_request.2.2.1 [((3, 16384), sampleReq)] 3 16384

/-! #### C2 — requests to a peer that sent CHOKE are *not* evicted

`handleMessage` on CHOKE only sets `peerChoking` (peer.go:281-282); nothing
tells the coordinator, whose map is touched only by `HandlePieceReceived`
and the 15-second `cleanupTimedOutRequests` sweep (coordinator.go:270-298).
The trace below reaches a state where the peer is choking us and the
coordinator still holds an outstanding request to it. -/

/-- The peer after UNCHOKE, our INTERESTED, then CHOKE. -/
def chokeTracePeer : Peer :=
  { state := { amChoking := true, amInterested := true,
               peerChoking := true, peerInterested := false },
    bitfield := none }

/-- The request issued while the peer was unchoked. -/
def chokeTraceReq : RequestInfo :=
  { pieceIndex := 0, «begin» := 0, length := 16384, requestedAt := 100, peer := "p" }

/-- The system after UNCHOKE · INTERESTED · issue(0,0) · CHOKE. -/
def chokeTraceSys : Sys :=
  { peers := [("p", chokeTracePeer)], reqs := [((0, 0), chokeTraceReq)] }

/-- The peer after UNCHOKE and our INTERESTED, before the CHOKE. -/
def unchokedPeer : Peer :=
  { state := { amChoking := true, amInterested := true,
               peerChoking := false, peerInterested := false },
    bitfield := none }

/-- C2: a reachable state in which peer "p" has `peer_choking = true` and
the coordinator still holds an outstanding request to "p" — receipt of
CHOKE did not evict it, contradicting the claim that eviction happens
immediately on CHOKE. -/
theorem C2_choke_does_not_evict_requests :
    Reachable chokeTraceSys ∧
    chokeTracePeer.state.peerChoking = true ∧
    chokeTraceSys.reqs.lookup (0, 0) = some chokeTraceReq ∧
    chokeTraceReq.peer = "p" := by
  refine ⟨?_, rfl, rfl, rfl⟩
  have h0 : Reachable (Sys.mk [("p", newPeer)] []) := by
    simpa using Reachable.init ["p"]
  have h1 := Reachable.step h0 (Step.peerMsg _ "p" .unchoke)
  have e1 : (Sys.mk [("p", newPeer)] []).updPeer "p" (fun p => handleMessage p .unchoke)
      = Sys.mk [("p", { state := { amChoking := true, amInterested := false,
                                   peerChoking := false, peerInterested := false },
                        bitfield := none })] [] := by decide
  rw [e1] at h1
  have h2 := Reachable.step h1 (Step.interested _ "p")
  have e2 : (Sys.mk [("p", { state := { amChoking := true, amInterested := false,
                                        peerChoking := false, peerInterested := false },
                             bitfield := none })] []).updPeer "p" sendInterested
      = Sys.mk [("p", unchokedPeer)] [] := by decide
  rw [e2] at h2
  have h3 := Reachable.step h2 (Step.issue _ "p" unchokedPeer 0 100
    [{ «begin» := 0, length := 16384 }] (by decide) (by decide))
  have e3 : ({ Sys.mk [("p", unchokedPeer)] [] with
      reqs := (requestPiecesFromPeer (Sys.mk [("p", unchokedPeer)] []).reqs "p" 0
        [{ «begin» := 0, length := 16384 }] 100).1 } : Sys)
      = Sys.mk [("p", unchokedPeer)] [((0, 0), chokeTraceReq)] := by decide
  rw [e3] at h3
  have h4 := Reachable.step h3 (Step.peerMsg _ "p" .choke)
  have e4 : (Sys.mk [("p", unchokedPeer)] [((0, 0), chokeTraceReq)]).updPeer "p"
      (fun p => handleMessage p .choke) = chokeTraceSys := by decide
  rwa [e4] at h4

/-! #### C9 — HAVE with an unallocated remote bitfield is ignored

The claim says the session allocates the bitfield on a first HAVE; in the
source `setPieceUnsafe` returns immediately when the bitfield is `nil`
(peer.go:313-315), so the HAVE is dropped and `HasPiece` stays false. -/

/-- C9 counterexample: on a fresh session (no BITFIELD received, bitfield
`nil`), processing HAVE(3) leaves `HasPiece(3) = false`, where the claim
requires it to become true. -/
theorem C9_counterexample_have_on_nil :
    hasPiece (handleMessage newPeer (.have 3)) 3 = false := by decide

/-- C9 (amended): a HAVE received while the remote bitfield is still `nil`
is silently ignored — the session state is unchanged, no bitfield is
allocated, and `HasPiece` for that index stays false. -/
theorem C9_have_nil_ignored (p : Peer) (i : Nat) (h : p.bitfield = none) :
    handleMessage p (.have i) = p ∧ hasPiece (handleMessage p (.have i)) i = false := by
  obtain ⟨st, bf⟩ := p
  cases bf with
  | none => exact ⟨rfl, rfl⟩
  | some b => simp at h

/-- C9 witness: the amended statement at a fresh session and index 3. -/
theorem C9_have_nil_ignored_witness :
    newPeer.bitfield = none ∧
    (handleMessage newPeer (.have 3) = newPeer ∧
      hasPiece (handleMessage newPeer (.have 3)) 3 = false) :=
  ⟨rfl, C9_have_nil_ignored newPeer 3 rfl⟩

/-! ### Piece store — `internal/piece/manager.go`

Pieces hold per-block payload slots; the manager owns the piece vector and
the bitfield.  SHA-1 is a parameter: the disk manager's `VerifyPiece`
becomes a function argument `verify : Nat → List Nat → Bool`, so theorems
quantify over the hash.  The asynchronous `go m.verifyAndStorePiece(...)`
of `AddBlockData` is composed synchronously (its effect runs to completion
before the result state is observed), and the disk write on the success
path is modelled as succeeding.  Fields no claim observes (`Index`,
`RequestedAt`, the per-piece pending-request map) are omitted. -/

/-- `BlockSize` (manager.go:11). -/
def blockSize : Nat := 16384

/-- `PieceState` (manager.go:21-28). -/
inductive PieceSt where
  | missing
  | requested
  | downloaded
  | verified
  deriving DecidableEq, Repr

/-- A block of a piece: offset, declared length, payload slot
(manager.go:47-53). -/
structure PBlock where
  «begin» : Nat
  length : Nat
  data : Option (List Nat)
  deriving DecidableEq, Repr

/-- A piece (manager.go:63-71). -/
structure GoPiece where
  length : Nat
  hash : List Nat
  state : PieceSt
  blocks : List PBlock
  deriving DecidableEq, Repr

/-- The block layout `NewPiece` builds (manager.go:74-104): blocks of
`BlockSize` at offsets `i*BlockSize`, the last one shorter when the
remainder is. -/
def mkBlocks (length : Nat) : List PBlock :=
  let numBlocks := (length + blockSize - 1) / blockSize
  (List.range numBlocks).map fun i =>
    let blockLength :=
      if i = numBlocks - 1 ∧ length - i * blockSize < blockSize
      then length - i * blockSize else blockSize
    { «begin» := i * blockSize, length := blockLength, data := none }

/-- `NewPiece` (manager.go:74-104). -/
def newGoPiece (length : Nat) (hash : List Nat) : GoPiece :=
  { length := length, hash := hash, state := .missing, blocks := mkBlocks length }

/-- The block-list update of `Piece.SetBlockData` (manager.go:168-200):
find the first block at offset `begin`; reject a payload whose length is
not the declared block length; otherwise store a copy of the payload —
note the source stores unconditionally, replacing any previous payload. -/
def setBlocksAux («begin» : Nat) (data : List Nat) : List PBlock → Except String (List PBlock)
  | [] => .error "block not found"
  | b :: rest =>
    if b.begin = «begin» then
      if data.length ≠ b.length then .error "block data length mismatch"
      else .ok ({ b with data := some data } :: rest)
    else
      match setBlocksAux «begin» data rest with
      | .error e => .error e
      | .ok rest2 => .ok (b :: rest2)

/-- `Piece.SetBlockData` (manager.go:168-200). -/
def setBlockData (p : GoPiece) («begin» : Nat) (data : List Nat) : Except String GoPiece :=
  match setBlocksAux «begin» data p.blocks with
  | .error e => .error e
  | .ok bs => .ok { p with blocks := bs }

/-- `Piece.IsComplete` (manager.go:107-117). -/
def isComplete (p : GoPiece) : Bool :=
  p.blocks.all (fun b => b.data.isSome)

/-- The concatenation `Piece.GetData` builds (manager.go:203-217): block
payloads in block order. -/
def assembled (p : GoPiece) : List Nat :=
  (p.blocks.map (fun b => b.data.getD [])).flatten

/-- `Piece.GetData` (manager.go:203-217): the full payload when complete,
an error (here `none`) otherwise. -/
def getData (p : GoPiece) : Option (List Nat) :=
  if isComplete p then some (assembled p) else none

/-- The manager state the claims observe: piece vector and bitfield
(manager.go:220-231). -/
structure PieceMgr where
  pieces : List GoPiece
  bitfield : List Nat
  deriving DecidableEq, Repr

/-- `NewManager` (manager.go:256-286): `numPieces` pieces of `pieceLength`
(the last one `lastPieceLength` when positive), hashes positionally (a
zero hash beyond the given list, as in the source), all-zero bitfield of
`⌈numPieces/8⌉` bytes. -/
def newPieceMgr (numPieces pieceLength lastPieceLength : Nat)
    (hashes : List (List Nat)) : PieceMgr :=
  { pieces := (List.range numPieces).map fun i =>
      let len := if i = numPieces - 1 ∧ lastPieceLength > 0 then lastPieceLength else pieceLength
      newGoPiece len (hashes.getD i (List.replicate 20 0))
    bitfield := List.replicate ((numPieces + 7) / 8) 0 }

/-- `MarkPieceVerified` (manager.go:398-426): out-of-range index is an
error (state unchanged); otherwise set the piece Verified and OR the
bitfield bit in (guarded by `byteIndex < len(bitfield)`, which is the
guard inside `bitSet`). -/
def markPieceVerified (m : PieceMgr) (index : Nat) : PieceMgr :=
  match m.pieces.get? index with
  | none => m
  | some p =>
    { pieces := m.pieces.set index { p with state := .verified },
      bitfield := bitSet m.bitfield index }

/-- The reset `verifyAndStorePiece` performs on hash mismatch
(manager.go:597-605): back to Missing, every block payload cleared. -/
def clearedPiece (p : GoPiece) : GoPiece :=
  { p with state := .missing,
           blocks := p.blocks.map (fun bl => { bl with data := none }) }

/-- `verifyAndStorePiece` (manager.go:579-616): with the complete payload,
on hash mismatch reset the piece to Missing and clear every block payload
(bitfield untouched, nothing returned to the caller); on match write to
disk (modelled as succeeding) and mark verified. -/
def verifyAndStorePiece (verify : Nat → List Nat → Bool) (m : PieceMgr)
    (pieceIndex : Nat) : PieceMgr :=
  match m.pieces.get? pieceIndex with
  | none => m
  | some p =>
    match getData p with
    | none => m
    | some data =>
      if ¬ verify pieceIndex data then
        { m with pieces := m.pieces.set pieceIndex (clearedPiece p) }
      else
        markPieceVerified m pieceIndex

/-- A Go call result: normal return, error return, or runtime panic. -/
inductive GoRes (α : Type) where
  | ok (a : α)
  | err (msg : String)
  | panic
  deriving DecidableEq, Repr

/-- `Manager.AddBlockData` (manager.go:364-395).  The source reads
`m.pieces[pieceIndex]` with no bounds check, so a negative or too-large
index is a Go runtime panic (the `piece == nil` test on the next line can
never fire: the slice holds non-nil pointers).  On success, when the piece
became complete it is marked Downloaded and `verifyAndStorePiece` runs. -/
def addBlockData (verify : Nat → List Nat → Bool) (m : PieceMgr)
    (pieceIndex : Int) («begin» : Nat) (data : List Nat) : GoRes PieceMgr :=
  if pieceIndex < 0 then .panic
  else match m.pieces.get? pieceIndex.toNat with
  | none => .panic
  | some p =>
    match setBlockData p «begin» data with
    | .error e => .err e
    | .ok p' =>
      if isComplete p' then
        .ok (verifyAndStorePiece verify
          { m with pieces := m.pieces.set pieceIndex.toNat { p' with state := .downloaded } }
          pieceIndex.toNat)
      else
        .ok { m with pieces := m.pieces.set pieceIndex.toNat p' }

/-- `Manager.ReadBlockFromDisk` (manager.go:619-638): same unchecked
`m.pieces[pieceIndex]` read (panic when out of range); then an error
unless the piece is Verified; then the disk manager's `ReadBlock`
(a function parameter here). -/
def readBlockFromDisk (readBlock : Nat → Nat → Nat → Except String (List Nat))
    (m : PieceMgr) (pieceIndex : Int) («begin» length : Nat) : GoRes (List Nat) :=
  if pieceIndex < 0 then .panic
  else match m.pieces.get? pieceIndex.toNat with
  | none => .panic
  | some p =>
    if p.state ≠ .verified then .err "piece not verified"
    else match readBlock pieceIndex.toNat «begin» length with
      | .error e => .err e
      | .ok bs => .ok bs

/-! #### C10 — out-of-range piece indices panic instead of erroring

`AddBlockData` is reached from `handlePieceRequest`/`handlePieceData`
(peer manager, `handlePieceData` peer.go path) with the raw `index` of a
remote PIECE message, and `ReadBlockFromDisk` with the raw REQUEST index.
Both functions read `m.pieces[pieceIndex]` before any bounds check
(manager.go:367 and :621), so an index `≥ len(pieces)` (or negative) is a
runtime panic, not an error return — yet both contain an (unreachable)
`piece == nil` error path showing the intended error-return behaviour,
and every sibling accessor (`GetPiece`, `GetNextBlocks`,
`MarkPieceVerified`, `GetBlockRequests`, `RequestBlock`) bounds-checks. -/

/-- A 4-piece manager (pieces of 2 bytes, last 1 byte). -/
def c10Mgr : PieceMgr := newPieceMgr 4 2 1 []

/-- C10: `AddBlockData` and `ReadBlockFromDisk` panic — rather than
returning an error — on piece index 4 of a 4-piece torrent and on a
negative index. -/
theorem C10_out_of_range_index_panics :
    addBlockData (fun _ _ => true) c10Mgr 4 0 [1, 1] = .panic ∧
    addBlockData (fun _ _ => true) c10Mgr (-1) 0 [1, 1] = .panic ∧
    readBlockFromDisk (fun _ _ _ => .ok [0]) c10Mgr 4 0 2 = .panic ∧
    readBlockFromDisk (fun _ _ _ => .ok [0]) c10Mgr (-1) 0 2 = .panic := by
  refine ⟨?_, rfl, ?_, rfl⟩ <;> decide

/-! #### C8 — a stored block payload is *not* immutable

`Piece.SetBlockData` (manager.go:168-200) stores the arriving payload
into the matching block without ever inspecting the existing `Data`
field: a second arrival with the declared length always replaces the
stored bytes. -/

/-- The 1-block piece after storing `[5, 6]` at offset 0. -/
def c8P1 : GoPiece :=
  { length := 2, hash := List.replicate 20 0, state := .missing,
    blocks := [{ «begin» := 0, length := 2, data := some [5, 6] }] }

/-- The same piece after a second, different arrival `[7, 8]`. -/
def c8P2 : GoPiece :=
  { length := 2, hash := List.replicate 20 0, state := .missing,
    blocks := [{ «begin» := 0, length := 2, data := some [7, 8] }] }

/-- C8 counterexample: record `[5,6]` at offset 0, then record the
differing payload `[7,8]` at the same offset before any reset — the
second arrival is accepted and the stored bytes become `[7,8]`, so the
payload was replaced, not immutable, and the differing arrival was not
rejected. -/
theorem C8_counterexample_second_arrival_overwrites :
    setBlockData (newGoPiece 2 (List.replicate 20 0)) 0 [5, 6] = .ok c8P1 ∧
    setBlockData c8P1 0 [7, 8] = .ok c8P2 ∧
    c8P2.blocks = [{ «begin» := 0, length := 2, data := some [7, 8] }] ∧
    ([7, 8] : List Nat) ≠ [5, 6] :=
  ⟨rfl, rfl, rfl, by decide⟩

/-- `setBlocksAux` success: the first block at the offset has the declared
length and gets the new payload stored over whatever was there. -/
lemma setBlocksAux_ok («begin» : Nat) (data : List Nat) :
    ∀ (bs bs' : List PBlock), setBlocksAux «begin» data bs = .ok bs' →
    ∃ i blk, bs.get? i = some blk ∧ blk.«begin» = «begin» ∧
      blk.length = data.length ∧
      bs' = bs.set i { blk with data := some data } := by
  intro bs
  induction bs with
  | nil => intro bs' h; simp [setBlocksAux] at h
  | cons hd rest ih =>
    intro bs' h
    by_cases hb : hd.«begin» = «begin»
    · by_cases hlen : data.length ≠ hd.length
      · simp [setBlocksAux, hb, hlen] at h
      · have hstep : setBlocksAux «begin» data (hd :: rest)
            = .ok ({ hd with data := some data } :: rest) := by
          simp [setBlocksAux, hb, hlen]
        rw [hstep] at h
        injection h with h2
        refine ⟨0, hd, rfl, hb, by omega, ?_⟩
        rw [← h2]
        rfl
    · simp only [setBlocksAux, if_neg hb] at h
      cases haux : setBlocksAux «begin» data rest with
      | error e => rw [haux] at h; simp at h
      | ok rest2 =>
        rw [haux] at h
        simp only [Except.ok.injEq] at h
        obtain ⟨i, blk, h1, h2, h3, h4⟩ := ih rest2 haux
        exact ⟨i + 1, blk, by simpa using h1, h2, h3, by simp [← h, h4]⟩

/-- C8 (amended): `record_block` with a payload of the declared block
length always stores it, replacing any previously stored bytes (last
write wins, byte-equal or not); only a payload of the wrong length is
rejected.  Success changes nothing but the one payload slot. -/
theorem C8_record_block_last_write_wins (p : GoPiece) («begin» : Nat)
    (data : List Nat) (p' : GoPiece)
    (h : setBlockData p «begin» data = .ok p') :
    ∃ i blk, p.blocks.get? i = some blk ∧ blk.«begin» = «begin» ∧
      blk.length = data.length ∧
      p' = { p with blocks := p.blocks.set i { blk with data := some data } } := by
  unfold setBlockData at h
  cases haux : setBlocksAux «begin» data p.blocks with
  | error e => rw [haux] at h; simp at h
  | ok bs =>
    rw [haux] at h
    simp only [Except.ok.injEq] at h
    obtain ⟨i, blk, h1, h2, h3, h4⟩ := setBlocksAux_ok «begin» data p.blocks bs haux
    exact ⟨i, blk, h1, h2, h3, by rw [← h, h4]⟩

/-- C8 witness: the amended statement at the concrete overwrite above. -/
theorem C8_record_block_last_write_wins_witness :
    ∃ i blk, c8P1.blocks.get? i = some blk ∧ blk.«begin» = 0 ∧
      blk.length = ([7, 8] : List Nat).length ∧
      c8P2 = { c8P1 with blocks := c8P1.blocks.set i { blk with data := some [7, 8] } } :=
  C8_record_block_last_write_wins c8P1 0 [7, 8] c8P2 rfl

/-! #### C3 — hash mismatch on piece completion resets the piece -/

lemma setBlockData_ok_shape (p : GoPiece) («begin» : Nat) (data : List Nat) (p' : GoPiece)
    (h : setBlockData p «begin» data = .ok p') :
    p'.state = p.state ∧ p'.length = p.length ∧ p'.hash = p.hash := by
  unfold setBlockData at h
  cases haux : setBlocksAux «begin» data p.blocks with
  | error e => rw [haux] at h; simp at h
  | ok bs =>
    rw [haux] at h
    simp only [Except.ok.injEq] at h
    rw [← h]
    exact ⟨rfl, rfl, rfl⟩

/-- C3: when the block that completes a piece is recorded and the
verifier rejects the assembled payload, `AddBlockData` returns without an
error (nothing is surfaced to the supplying peer), the piece transitions
to Missing with every block payload cleared (`clearedPiece`), and the
bitfield — part of `{ m with pieces := … }` — is untouched, as is every
other piece. -/
theorem C3_hash_mismatch_resets (verify : Nat → List Nat → Bool) (m : PieceMgr)
    (i «begin» : Nat) (data : List Nat) (p p' : GoPiece)
    (hp : m.pieces.get? i = some p)
    (hset : setBlockData p «begin» data = .ok p')
    (hcomp : isComplete p' = true)
    (hfail : verify i (assembled p') = false) :
    addBlockData verify m (i : Int) «begin» data =
      .ok { m with pieces := m.pieces.set i (clearedPiece p') } := by
  have hlt : i < m.pieces.length := (List.get?_eq_some.mp hp).1
  unfold addBlockData
  rw [if_neg (by exact not_lt.mpr (Int.natCast_nonneg i))]
  simp only [Int.toNat_natCast, hp, hset]
  rw [if_pos (by simp [hcomp])]
  unfold verifyAndStorePiece
  have hget2 : (m.pieces.set i { p' with state := PieceSt.downloaded }).get? i
      = some { p' with state := PieceSt.downloaded } := by
    rw [List.get?_set_eq, hp]
    rfl
  simp only [hget2]
  have hgd : getData { p' with state := PieceSt.downloaded } = some (assembled p') := by
    unfold getData
    rw [if_pos (by simpa [isComplete] using hcomp)]
    rfl
  simp only [hgd]
  rw [if_pos (by simp [hfail])]
  simp only [GoRes.ok.injEq]
  rw [List.set_set]
  rfl

/-- The test manager for the C3 witness: one piece of two bytes. -/
def c3M : PieceMgr := newPieceMgr 1 2 0 []

/-- The piece of `c3M` after its single block is stored. -/
def c3P : GoPiece :=
  { length := 2, hash := List.replicate 20 0, state := .missing,
    blocks := [{ «begin» := 0, length := 2, data := some [1, 2] }] }

/-- C3 witness: feeding the final (only) block of piece 0 under a verifier
that rejects everything resets the piece and surfaces no error. -/
theorem C3_hash_mismatch_resets_witness :
    addBlockData (fun _ _ => false) c3M ((0 : Nat) : Int) 0 [1, 2] =
      .ok { c3M with pieces := c3M.pieces.set 0 (clearedPiece c3P) } :=
  C3_hash_mismatch_resets (fun _ _ => false) c3M 0 0 [1, 2]
    (newGoPiece 2 (List.replicate 20 0)) c3P rfl rfl rfl rfl

/-! #### C4 — bitfield bit i ⇔ piece i Verified

The equivalence is *refutable* as stated "at every moment": a block
recorded for an already-Verified piece (nothing stops a remote PIECE
message from doing that) overwrites a payload, re-completes the piece,
re-verifies it, and on mismatch resets it to Missing — while its bitfield
bit, which nothing ever clears, stays set. -/

/-- A verifier accepting exactly the one-byte payload `[7]`. -/
def c4Verify : Nat → List Nat → Bool := fun _ d => d == [7]

/-- A one-piece manager (piece length 1). -/
def c4M0 : PieceMgr := newPieceMgr 1 1 0 []

/-- After the correct block `[7]`: Verified, bit set. -/
def c4M1 : PieceMgr :=
  { pieces := [{ length := 1, hash := List.replicate 20 0, state := .verified,
                 blocks := [{ «begin» := 0, length := 1, data := some [7] }] }],
    bitfield := [128] }

/-- The piece after the spurious block `[9]`: Missing, payload cleared. -/
def c4Piece2 : GoPiece :=
  { length := 1, hash := List.replicate 20 0, state := .missing,
    blocks := [{ «begin» := 0, length := 1, data := none }] }

/-- After a spurious differing block `[9]` for the verified piece: the
piece is Missing — but the bit is still set. -/
def c4M2 : PieceMgr := { pieces := [c4Piece2], bitfield := [128] }

/-- C4 counterexample: download piece 0 (bit 0 set, piece Verified), then
record a spurious block for the verified piece; the store resets the piece
to Missing while `GetBitfield` still has bit 0 set — the claimed
"at any time bit i ⇔ Verified" equivalence fails in this reachable
state. -/
theorem C4_counterexample_bit_set_piece_missing :
    addBlockData c4Verify c4M0 0 0 [7] = .ok c4M1 ∧
    addBlockData c4Verify c4M1 0 0 [9] = .ok c4M2 ∧
    bitGet c4M2.bitfield 0 = true ∧
    c4M2.pieces.get? 0 = some c4Piece2 ∧
    c4Piece2.state = .missing :=
  ⟨rfl, rfl, by decide, rfl, rfl⟩

/-! The amended statement: over every execution in which blocks are only
recorded for pieces that are not yet Verified (the intended protocol use),
bit `i` of the bitfield is set exactly when piece `i` is Verified — and
bits beyond the last piece (the unused trailing bits of the last byte)
are never set. -/

/-- States of the piece store reachable by recording blocks only for
not-yet-Verified pieces. -/
inductive PReach (verify : Nat → List Nat → Bool) : PieceMgr → Prop where
  | init (numPieces pieceLength lastPieceLength : Nat) (hashes : List (List Nat)) :
      PReach verify (newPieceMgr numPieces pieceLength lastPieceLength hashes)
  | step {m m' : PieceMgr} (pieceIndex : Int) («begin» : Nat) (data : List Nat) :
      PReach verify m →
      (∀ p, m.pieces.get? pieceIndex.toNat = some p → p.state ≠ .verified) →
      addBlockData verify m pieceIndex «begin» data = .ok m' →
      PReach verify m'

/-- The bitfield invariant: correct byte count, and bit `j` set exactly
when piece `j` exists and is Verified. -/
def BitfieldInv (m : PieceMgr) : Prop :=
  m.bitfield.length = (m.pieces.length + 7) / 8 ∧
  ∀ j, bitGet m.bitfield j = true ↔ ∃ p, m.pieces.get? j = some p ∧ p.state = .verified

lemma bitGet_eq_testBit (bf : List Nat) (i : Nat) :
    bitGet bf i = (bf.getD (i / 8) 0).testBit (7 - i % 8) := by
  unfold bitGet
  by_cases h : i / 8 ≥ bf.length
  · rw [if_pos h, List.getD_eq_default _ _ h]
    simp [Nat.zero_testBit]
  · rw [if_neg h]
    rw [show (1 <<< (7 - i % 8)) = 2 ^ (7 - i % 8) by simp [Nat.shiftLeft_eq]]
    rw [show ((bf.getD (i / 8) 0) &&& 2 ^ (7 - i % 8)) =
      ((bf.getD (i / 8) 0).testBit (7 - i % 8)).toNat * 2 ^ (7 - i % 8) from
        Nat.and_two_pow _ _]
    have hpow : 0 < 2 ^ (7 - i % 8) := Nat.pos_pow_of_pos _ (by norm_num)
    cases hb : (bf.getD (i / 8) 0).testBit (7 - i % 8)
    · simp
    · simp [hpow.ne']

lemma getD_set_self (bf : List Nat) (n : Nat) (v : Nat) (h : n < bf.length) :
    (bf.set n v).getD n 0 = v := by
  rw [List.getD_eq_get?, List.get?_set_eq, List.get?_eq_get h]
  rfl

lemma getD_set_ne (bf : List Nat) (n m : Nat) (v : Nat) (h : n ≠ m) :
    (bf.set n v).getD m 0 = bf.getD m 0 := by
  rw [List.getD_eq_get?, List.getD_eq_get?, List.get?_set_ne _ _ h]

lemma bitGet_bitSet_self (bf : List Nat) (i : Nat) (h : i / 8 < bf.length) :
    bitGet (bitSet bf i) i = true := by
  unfold bitSet
  rw [if_neg (not_le.mpr h)]
  rw [bitGet_eq_testBit]
  rw [getD_set_self _ _ _ h]
  rw [show (1 <<< (7 - i % 8)) = 2 ^ (7 - i % 8) by simp [Nat.shiftLeft_eq]]
  simp [Nat.testBit_or, Nat.testBit_two_pow]

lemma bitGet_bitSet_ne (bf : List Nat) (i j : Nat) (h : i ≠ j) :
    bitGet (bitSet bf i) j = bitGet bf j := by
  unfold bitSet
  by_cases hr : i / 8 ≥ bf.length
  · rw [if_pos hr]
  · rw [if_neg hr]
    rw [bitGet_eq_testBit, bitGet_eq_testBit]
    by_cases hbyte : i / 8 = j / 8
    · rw [← hbyte, getD_set_self _ _ _ (not_le.mp hr)]
      have hmask : 7 - i % 8 ≠ 7 - j % 8 := by
        have h1 : i % 8 < 8 := Nat.mod_lt _ (by norm_num)
        have h2 : j % 8 < 8 := Nat.mod_lt _ (by norm_num)
        have hbit : i % 8 ≠ j % 8 := fun hc => h (by omega)
        omega
      rw [show (1 <<< (7 - i % 8)) = 2 ^ (7 - i % 8) by simp [Nat.shiftLeft_eq]]
      rw [Nat.testBit_or, Nat.testBit_two_pow]
      simp [hmask]
    · rw [getD_set_ne _ _ _ _ hbyte]

lemma newPieceMgr_get_state (numPieces pieceLength lastPieceLength : Nat)
    (hashes : List (List Nat)) (j : Nat) (p : GoPiece)
    (h : (newPieceMgr numPieces pieceLength lastPieceLength hashes).pieces.get? j = some p) :
    p.state = .missing := by
  unfold newPieceMgr at h
  simp only [List.get?_map] at h
  cases hr : (List.range numPieces).get? j with
  | none => rw [hr] at h; simp at h
  | some k =>
    rw [hr] at h
    simp only [Option.map_some'] at h
    injection h with h2
    rw [← h2]
    rfl

lemma bitfieldInv_init (numPieces pieceLength lastPieceLength : Nat)
    (hashes : List (List Nat)) :
    BitfieldInv (newPieceMgr numPieces pieceLength lastPieceLength hashes) := by
  constructor
  · simp [newPieceMgr]
  · intro j
    constructor
    · intro hbit
      exfalso
      rw [bitGet_eq_testBit] at hbit
      have hz : ((newPieceMgr numPieces pieceLength lastPieceLength hashes).bitfield.getD
          (j / 8) 0) = 0 := by
        unfold newPieceMgr
        simp only
        rcases lt_or_ge (j / 8) ((numPieces + 7) / 8) with hlt | hge
        · rw [List.getD_eq_get?, List.get?_eq_get (by simpa using hlt)]
          simp
        · exact List.getD_eq_default _ _ (by simpa using hge)
      rw [hz] at hbit
      simp [Nat.zero_testBit] at hbit
    · rintro ⟨p, hp, hst⟩
      have := newPieceMgr_get_state _ _ _ _ _ _ hp
      rw [this] at hst
      exact absurd hst (by decide)

/-- `BitfieldInv` is preserved by any `AddBlockData` call that succeeds on
a piece that is not yet Verified. -/
lemma addBlockData_preserves_inv (verify : Nat → List Nat → Bool)
    (m m' : PieceMgr) (pieceIndex : Int) («begin» : Nat) (data : List Nat)
    (hnv : ∀ p, m.pieces.get? pieceIndex.toNat = some p → p.state ≠ .verified)
    (hok : addBlockData verify m pieceIndex «begin» data = .ok m')
    (hinv : BitfieldInv m) : BitfieldInv m' := by
  obtain ⟨hlen, hbits⟩ := hinv
  unfold addBlockData at hok
  by_cases hneg : pieceIndex < 0
  · rw [if_pos hneg] at hok; exact absurd hok (by simp)
  rw [if_neg hneg] at hok
  generalize hidef : pieceIndex.toNat = i at hok hnv
  cases hget : m.pieces.get? i with
  | none =>
    simp only [hget] at hok
    exact absurd hok (by simp)
  | some p =>
    simp only [hget] at hok
    have hlt : i < m.pieces.length := (List.get?_eq_some.mp hget).1
    cases hset : setBlockData p «begin» data with
    | error e =>
      simp only [hset] at hok
      exact absurd hok (by simp)
    | ok p' =>
      simp only [hset] at hok
      have hps : p'.state = p.state := (setBlockData_ok_shape _ _ _ _ hset).1
      have hpnv : p.state ≠ .verified := hnv p hget
      by_cases hcomp : isComplete p' = true
      · rw [if_pos (by simp [hcomp])] at hok
        -- the piece is completed: Downloaded, then verified or reset
        simp only [GoRes.ok.injEq] at hok
        set md : PieceMgr :=
          { m with pieces := m.pieces.set i { p' with state := PieceSt.downloaded } } with hmd
        have hgetd : md.pieces.get? i = some { p' with state := PieceSt.downloaded } := by
          rw [hmd]
          simp only
          rw [List.get?_set_eq, hget]
          rfl
        unfold verifyAndStorePiece at hok
        simp only [hgetd] at hok
        have hgd : getData { p' with state := PieceSt.downloaded } = some (assembled p') := by
          unfold getData
          rw [if_pos (by simpa [isComplete] using hcomp)]
          rfl
        simp only [hgd] at hok
        by_cases hv : verify i (assembled p')
        · rw [if_neg (by simp [hv])] at hok
          unfold markPieceVerified at hok
          simp only [hgetd] at hok
          rw [← hok]
          constructor
          · simp [hmd, bitSet]
            split <;> simp [hlen]
          · intro j
            by_cases hij : j = i
            · subst hij
              constructor
              · intro _
                refine ⟨{ p' with state := PieceSt.verified }, ?_, rfl⟩
                simp only [hmd]
                rw [List.set_set, List.get?_set_eq, hget]
                rfl
              · intro _
                apply bitGet_bitSet_self
                rw [hlen]
                omega
            · rw [show md.bitfield = m.bitfield from rfl]
              rw [bitGet_bitSet_ne _ _ _ (fun hc => hij hc.symm)]
              rw [hbits j]
              constructor
              · rintro ⟨q, hq, hqs⟩
                refine ⟨q, ?_, hqs⟩
                simp only [hmd]
                rw [List.set_set, List.get?_set_ne _ _ (fun hc => hij hc.symm)]
                exact hq
              · rintro ⟨q, hq, hqs⟩
                refine ⟨q, ?_, hqs⟩
                simp only [hmd] at hq
                rw [List.set_set, List.get?_set_ne _ _ (fun hc => hij hc.symm)] at hq
                exact hq
        · rw [if_pos (by simp [hv])] at hok
          rw [← hok]
          constructor
          · simp [hmd, hlen]
          · intro j
            by_cases hij : j = i
            · subst hij
              rw [show md.bitfield = m.bitfield from rfl]
              rw [hbits j]
              constructor
              · rintro ⟨q, hq, hqs⟩
                rw [hget] at hq
                injection hq with hq2
                exact absurd (hq2 ▸ hqs) hpnv
              · rintro ⟨q, hq, hqs⟩
                simp only [hmd] at hq
                rw [List.set_set, List.get?_set_eq, hget] at hq
                have hq2 : clearedPiece { p' with state := PieceSt.downloaded } = q := by
                  simpa using hq
                rw [← hq2] at hqs
                exact absurd hqs (by simp [clearedPiece])
            · rw [show md.bitfield = m.bitfield from rfl]
              rw [hbits j]
              constructor
              · rintro ⟨q, hq, hqs⟩
                refine ⟨q, ?_, hqs⟩
                simp only [hmd]
                rw [List.set_set, List.get?_set_ne _ _ (fun hc => hij hc.symm)]
                exact hq
              · rintro ⟨q, hq, hqs⟩
                refine ⟨q, ?_, hqs⟩
                simp only [hmd] at hq
                rw [List.set_set, List.get?_set_ne _ _ (fun hc => hij hc.symm)] at hq
                exact hq
      · rw [if_neg (by simp [hcomp])] at hok
        simp only [GoRes.ok.injEq] at hok
        rw [← hok]
        constructor
        · simp [hlen]
        · intro j
          by_cases hij : j = i
          · subst hij
            rw [show ({ m with pieces := m.pieces.set j p' } : PieceMgr).bitfield
                = m.bitfield from rfl]
            rw [hbits j]
            constructor
            · rintro ⟨q, hq, hqs⟩
              rw [hget] at hq
              injection hq with hq2
              exact absurd (hq2 ▸ hqs) hpnv
            · rintro ⟨q, hq, hqs⟩
              simp only at hq
              rw [List.get?_set_eq, hget] at hq
              have hq2 : p' = q := by simpa using hq
              rw [← hq2] at hqs
              rw [hps] at hqs
              exact absurd hqs hpnv
          · rw [show ({ m with pieces := m.pieces.set i p' } : PieceMgr).bitfield
                = m.bitfield from rfl]
            rw [hbits j]
            constructor
            · rintro ⟨q, hq, hqs⟩
              refine ⟨q, ?_, hqs⟩
              simp only
              rw [List.get?_set_ne _ _ (fun hc => hij hc.symm)]
              exact hq
            · rintro ⟨q, hq, hqs⟩
              refine ⟨q, ?_, hqs⟩
              simp only at hq
              rw [List.get?_set_ne _ _ (fun hc => hij hc.symm)] at hq
              exact hq

/-- C4 (amended): in every execution where blocks are recorded only for
pieces not yet Verified, bit `i` of the bitfield (byte `i/8`, mask
`1 <<< (7 - i%8)`) is set exactly when piece `i` exists and is Verified —
in particular every trailing bit past the last piece stays zero. -/
theorem C4_bitfield_iff_verified (verify : Nat → List Nat → Bool) (m : PieceMgr)
    (h : PReach verify m) :
    ∀ j, bitGet m.bitfield j = true ↔
      ∃ p, m.pieces.get? j = some p ∧ p.state = .verified := by
  have hinv : BitfieldInv m := by
    induction h with
    | init numPieces pieceLength lastPieceLength hashes => exact bitfieldInv_init _ _ _ _
    | step pieceIndex b data _ hnv hok ih =>
      exact addBlockData_preserves_inv _ _ _ _ _ _ hnv hok ih
  exact hinv.2

/-- C4 witness: after downloading the single piece of `c4M0` (a reachable
state whose step records a block for the then-Missing piece 0), the
theorem yields bit 0 of the bitfield set. -/
theorem C4_bitfield_iff_verified_witness : bitGet c4M1.bitfield 0 = true := by
  have hreach : PReach c4Verify c4M1 := by
    refine PReach.step 0 0 [7] (PReach.init 1 1 0 []) ?_ rfl
    intro p hp
    rw [show (newPieceMgr 1 1 0 []).pieces.get? ((0 : Int)).toNat
        = some (newGoPiece 1 (List.replicate 20 0)) from rfl] at hp
    injection hp with h2
    rw [← h2]
    decide
  exact (C4_bitfield_iff_verified c4Verify c4M1 hreach 0).mpr
    ⟨{ length := 1, hash := List.replicate 20 0, state := .verified,
       blocks := [{ «begin» := 0, length := 1, data := some [7] }] }, rfl, rfl⟩

/-! ### Piece selection strategies — `internal/piece/strategy.go`

Selection reads only each piece's state and the peer's bitfield, and
returns a piece (identified here by its position in the slice).  The
`SmartStrategy` built by `NewSmartStrategy` wires an `EndGameStrategy`
with threshold **5** and rarest-first as its base, while its own
`endGameThreshold` is 10; the rarest-first instance carries the
registered peer bitfields. -/

/-- `peerHasPiece` (strategy.go:316-329). -/
def peerHasPiece (bitfield : List Nat) (pieceIndex : Nat) : Bool :=
  if bitfield.length = 0 then false
  else bitGet bitfield pieceIndex

/-- `SequentialStrategy.SelectPiece` (strategy.go:22-38): the first piece
that is not Verified and that the peer has.  The scan of
`EndGameStrategy`'s endgame branch (strategy.go:174-179) is this same
function. -/
def seqSelect (pieces : List PieceSt) (bf : List Nat) : Option Nat :=
  (List.range pieces.length).find? fun i =>
    (pieces.getD i .missing != .verified) && peerHasPiece bf i

/-- How many registered peers hold piece `i` (strategy.go:121-127). -/
def rarityOf (peerBitfields : List (String × List Nat)) (i : Nat) : Nat :=
  (peerBitfields.filter (fun pb => peerHasPiece pb.2 i)).length

/-- `RarestFirstStrategy.SelectPiece` (strategy.go:106-146): among the
candidates (not Verified, peer has it), one of minimal rarity.  The
source sorts candidates with the *unstable* `sort.Slice` and returns
`candidates[0]`, so ties are broken in an unspecified way; this model
takes the earliest candidate of minimal rarity, and no theorem below
depends on the choice among ties. -/
def rarestSelect (peerBitfields : List (String × List Nat))
    (pieces : List PieceSt) (bf : List Nat) : Option Nat :=
  ((List.range pieces.length).filter fun i =>
      (pieces.getD i .missing != .verified) && peerHasPiece bf i).foldl
    (fun acc i => match acc with
      | none => some i
      | some j =>
        if rarityOf peerBitfields i < rarityOf peerBitfields j then some i else some j)
    none

/-- `EndGameStrategy.SelectPiece` (strategy.go:163-184), with rarest-first
as the base strategy (as `NewSmartStrategy` wires it): when at most
`threshold` pieces are missing, take the first non-Verified piece the peer
has; otherwise defer to the base strategy. -/
def endGameSelect (peerBitfields : List (String × List Nat)) (threshold : Nat)
    (pieces : List PieceSt) (bf : List Nat) : Option Nat :=
  let missing := (pieces.filter (fun st => st != .verified)).length
  if missing ≤ threshold then seqSelect pieces bf
  else rarestSelect peerBitfields pieces bf

/-- `sequentialThreshold` of `NewSmartStrategy` (strategy.go:207). -/
def sequentialThreshold : Nat := 4

/-- `endGameThreshold` of `NewSmartStrategy` (strategy.go:208). -/
def endGameThreshold : Nat := 10

/-- The threshold `NewSmartStrategy` passes to `NewEndGameStrategy`
(strategy.go:205) — **5**, not 10. -/
def endGameInnerThreshold : Nat := 5

/-- `SmartStrategy.SelectPiece` (strategy.go:223-250): sequential while
fewer than 4 pieces are completed (falling through when it finds
nothing), then the endgame strategy when at most 10 remain, else
rarest-first. -/
def smartSelect (peerBitfields : List (String × List Nat))
    (pieces : List PieceSt) (bf : List Nat) : Option Nat :=
  let completed := (pieces.filter (fun st => st == .verified)).length
  let remaining := pieces.length - completed
  if completed < sequentialThreshold then
    match seqSelect pieces bf with
    | some i => some i
    | none =>
      if remaining ≤ endGameThreshold then
        endGameSelect peerBitfields endGameInnerThreshold pieces bf
      else rarestSelect peerBitfields pieces bf
  else if remaining ≤ endGameThreshold then
    endGameSelect peerBitfields endGameInnerThreshold pieces bf
  else rarestSelect peerBitfields pieces bf

/-! #### C6 — the Smart strategy's endgame band

With 6–10 pieces remaining the Smart strategy consults the
`EndGameStrategy`, whose threshold is 5, so it *delegates to rarest-first*
instead of collapsing to "any Missing piece the peer has". -/

/-- 15 pieces: 0–7 Verified, 8–14 Missing (7 remaining). -/
def c6Pieces : List PieceSt :=
  List.replicate 8 .verified ++ List.replicate 7 .missing

/-- The requesting peer has pieces 8 and 9. -/
def c6Bf : List Nat := [0, 192]

/-- One other registered peer holds piece 8 only, so piece 9 is rarer. -/
def c6Pbs : List (String × List Nat) := [("other", [0, 128])]

/-- C6 counterexample: 7 pieces remain (≤ 10), yet the Smart strategy
does not collapse to "the first Missing piece the peer has" (which is
piece 8): it runs rarest-first and picks piece 9, the rarer one.  The
collapse happens only when 5 or fewer remain, contrary to the claim's
"for all such states, not only when 5 or fewer remain". -/
theorem C6_counterexample_endgame_band_uses_rarest :
    (c6Pieces.filter (fun st => st != .verified)).length = 7 ∧
    smartSelect c6Pbs c6Pieces c6Bf = rarestSelect c6Pbs c6Pieces c6Bf ∧
    smartSelect c6Pbs c6Pieces c6Bf = some 9 ∧
    seqSelect c6Pieces c6Bf = some 8 := by decide

lemma missing_eq_remaining (pieces : List PieceSt) :
    (pieces.filter (fun st => st != .verified)).length
      = pieces.length - (pieces.filter (fun st => st == .verified)).length := by
  induction pieces with
  | nil => rfl
  | cons st rest ih =>
    have hle : (rest.filter (fun st => st == .verified)).length ≤ rest.length :=
      List.length_filter_le _ _
    by_cases h : st = .verified
    · simp [List.filter_cons, h, ih]
    · have h1 : (st != PieceSt.verified) = true := by simp [h]
      have h2 : (st == PieceSt.verified) = false := by simp [h]
      simp only [List.filter_cons, h1, h2]
      simp only [Bool.false_eq_true, if_true, if_false, ite_true, ite_false, List.length_cons]
      rw [ih]
      omega

lemma rarestSelect_eq_none_of_seq_none (pbs : List (String × List Nat))
    (pieces : List PieceSt) (bf : List Nat)
    (h : seqSelect pieces bf = none) : rarestSelect pbs pieces bf = none := by
  unfold seqSelect at h
  rw [List.find?_eq_none] at h
  unfold rarestSelect
  have hfil : ((List.range pieces.length).filter fun i =>
      (pieces.getD i .missing != .verified) && peerHasPiece bf i) = [] := by
    rw [List.filter_eq_nil]
    intro a ha
    exact h a ha
  rw [hfil]
  rfl

lemma endGameSelect_eq_none_of_seq_none (pbs : List (String × List Nat)) (t : Nat)
    (pieces : List PieceSt) (bf : List Nat)
    (h : seqSelect pieces bf = none) : endGameSelect pbs t pieces bf = none := by
  unfold endGameSelect
  dsimp only
  by_cases hth : (pieces.filter (fun st => st != .verified)).length ≤ t
  · rw [if_pos hth]; exact h
  · rw [if_neg hth]; exact rarestSelect_eq_none_of_seq_none pbs pieces bf h

/-- C6 (amended): under the Smart strategy, with `completed` the number of
Verified pieces and `remaining` the rest: while `completed < 4` the
selection is Sequential's; with `completed ≥ 4`, more than 10 remaining
uses Rarest-first; 10 or fewer remaining consults the EndGame strategy,
which collapses to "first Missing piece the peer has" only when 5 or
fewer pieces remain and otherwise delegates to Rarest-first. -/
theorem C6_smart_strategy_phases (pbs : List (String × List Nat))
    (pieces : List PieceSt) (bf : List Nat) :
    (((pieces.filter (fun st => st == .verified)).length < 4 →
        smartSelect pbs pieces bf = seqSelect pieces bf) ∧
     (4 ≤ (pieces.filter (fun st => st == .verified)).length →
        endGameThreshold < pieces.length - (pieces.filter (fun st => st == .verified)).length →
        smartSelect pbs pieces bf = rarestSelect pbs pieces bf) ∧
     (4 ≤ (pieces.filter (fun st => st == .verified)).length →
        pieces.length - (pieces.filter (fun st => st == .verified)).length ≤ endGameThreshold →
        ((pieces.length - (pieces.filter (fun st => st == .verified)).length ≤ 5 →
            smartSelect pbs pieces bf = seqSelect pieces bf) ∧
         (5 < pieces.length - (pieces.filter (fun st => st == .verified)).length →
            smartSelect pbs pieces bf = rarestSelect pbs pieces bf)))) := by
  have hmr := missing_eq_remaining pieces
  refine ⟨?_, ?_, ?_⟩
  · intro hc
    unfold smartSelect
    rw [if_pos (by simpa [sequentialThreshold] using hc)]
    cases hseq : seqSelect pieces bf with
    | some i => rfl
    | none =>
      simp only
      split
      · rw [endGameSelect_eq_none_of_seq_none _ _ _ _ hseq]
      · rw [rarestSelect_eq_none_of_seq_none _ _ _ hseq]
  · intro hc hr
    unfold smartSelect
    rw [if_neg (by simp only [sequentialThreshold]; omega)]
    rw [if_neg (by simp only [endGameThreshold] at hr ⊢; omega)]
  · intro hc hr
    constructor
    · intro h5
      unfold smartSelect
      rw [if_neg (by simp only [sequentialThreshold]; omega)]
      rw [if_pos (by simp only [endGameThreshold] at hr ⊢; omega)]
      unfold endGameSelect
      dsimp only
      rw [if_pos (by rw [hmr]; simp only [endGameInnerThreshold]; omega)]
    · intro h5
      unfold smartSelect
      rw [if_neg (by simp only [sequentialThreshold]; omega)]
      rw [if_pos (by simp only [endGameThreshold] at hr ⊢; omega)]
      unfold endGameSelect
      dsimp only
      rw [if_neg (by rw [hmr]; simp only [endGameInnerThreshold]; omega)]

/-- C6 witness: the amended phases at concrete states — a fresh torrent
(0 completed) selects sequentially, and the 7-remaining state of the
counterexample setup delegates to rarest-first. -/
theorem C6_smart_strategy_phases_witness :
    smartSelect [] [.missing] [128] = seqSelect [.missing] [128] ∧
    smartSelect c6Pbs c6Pieces c6Bf = rarestSelect c6Pbs c6Pieces c6Bf :=
  ⟨(C6_smart_strategy_phases [] [.missing] [128]).1 (by decide),
   ((C6_smart_strategy_phases c6Pbs c6Pieces c6Bf).2.2 (by decide) (by decide)).2 (by decide)⟩

/-! ### Disk backend — `internal/disk` (disk manager)

`WritePiece`/`ReadPiece` map piece space onto the manifest's files: the
files concatenated in manifest order form a virtual byte stream, piece
`i` occupying `[i*pieceLength, i*pieceLength + pieceSize i)`.  The file
map keyed by absolute path is modelled as the manifest-ordered list of
`(declared length, contents)` pairs (manifest paths are assumed
distinct, as `Initialize` creates one handle per path).  `WriteAt` at an
in-range offset splices bytes into the file; `ReadAt` fills a buffer,
tolerating EOF (the unfilled tail of the zeroed buffer stays zero). -/

/-- The torrent fields the disk manager reads (torrent.go): piece length,
single-file length, multi-file lengths in manifest order, and the piece
count (`NumPieces = len(pieces)/20`, recorded here as a field). -/
structure TorrentShape where
  pieceLength : Nat
  length : Nat
  files : List Nat
  numPieces : Nat
  deriving Repr

/-- `Torrent.IsSingleFile` (torrent.go:215-217). -/
def TorrentShape.isSingleFile (t : TorrentShape) : Bool := t.files.isEmpty

/-- `Torrent.TotalLength` (torrent.go:220-230). -/
def TorrentShape.totalLength (t : TorrentShape) : Nat :=
  if t.isSingleFile then t.length else t.files.sum

/-- `Torrent.PieceSize` (torrent.go:250-269): full `pieceLength` except
for the last piece, whose size is `total % pieceLength` when nonzero;
out-of-range indices give 0. -/
def TorrentShape.pieceSize (t : TorrentShape) (index : Nat) : Nat :=
  if index ≥ t.numPieces then 0
  else if index < t.numPieces - 1 then t.pieceLength
  else
    let lastPieceSize := t.totalLength % t.pieceLength
    if lastPieceSize = 0 then t.pieceLength else lastPieceSize

/-- Go `file.WriteAt(data, off)` for in-range writes: splice `data` over
`c` at `off`.  (Go can also extend a file past its end; the disk manager
never does — `writeMultiFile` clips to the declared length and the
single-file piece range lies inside the pre-truncated file.) -/
def writeAt (c : List Nat) (off : Nat) (data : List Nat) : List Nat :=
  c.take off ++ data ++ c.drop (off + data.length)

/-- Go `file.ReadAt(buf, off)` into a zero-initialized buffer of length
`n`, EOF tolerated: the available bytes, zero-padded to `n`. -/
def readAt (c : List Nat) (off n : Nat) : List Nat :=
  let avail := (c.drop off).take n
  avail ++ List.replicate (n - avail.length) 0

/-- The per-file state: declared length and current contents. -/
abbrev DiskFiles := List (Nat × List Nat)

/-- `writeMultiFile` (disk.go:912-972): walk the manifest, skip files
wholly before `offset`, then write each file's slice of `data` and stop
once all of `data` is written (or a zero-length write occurs). -/
def writeMulti (offset : Nat) (data : List Nat) :
    DiskFiles → Nat → Nat → DiskFiles
  | [], _, _ => []
  | (fl, c) :: rest, curOff, dataOff =>
    let fileEnd := curOff + fl
    if offset ≥ fileEnd then
      (fl, c) :: writeMulti offset data rest fileEnd dataOff
    else
      let fileWriteStart := if offset > curOff then offset - curOff else 0
      let btw0 := data.length - dataOff
      let btw := if fileWriteStart + btw0 > fl then fl - fileWriteStart else btw0
      if btw = 0 then (fl, c) :: rest
      else
        let c' := writeAt c fileWriteStart ((data.drop dataOff).take btw)
        if dataOff + btw ≥ data.length then (fl, c') :: rest
        else (fl, c') :: writeMulti offset data rest fileEnd (dataOff + btw)

/-- `readMultiFile` (disk.go:1009-1065): same walk, reading each file's
slice into the buffer. -/
def readMulti (offset : Nat) :
    DiskFiles → Nat → Nat → List Nat → List Nat
  | [], _, _, buf => buf
  | (fl, c) :: rest, curOff, dataOff, buf =>
    let fileEnd := curOff + fl
    if offset ≥ fileEnd then readMulti offset rest fileEnd dataOff buf
    else
      let fileReadStart := if offset > curOff then offset - curOff else 0
      let btr0 := buf.length - dataOff
      let btr := if fileReadStart + btr0 > fl then fl - fileReadStart else btr0
      if btr = 0 then buf
      else
        let buf' := buf.take dataOff ++ readAt c fileReadStart btr
          ++ buf.drop (dataOff + btr)
        if dataOff + btr ≥ buf.length then buf'
        else readMulti offset rest fileEnd (dataOff + btr) buf'

/-- `WritePiece` (disk.go:884-909): single-file mode writes at
`pieceIndex * pieceLength` into the one file; multi-file mode runs
`writeMultiFile`.  (The "file not open" error of an uninitialized state
is out of scope: the model takes the initialized state.) -/
def writePiece (t : TorrentShape) (st : DiskFiles) (pieceIndex : Nat)
    (data : List Nat) : DiskFiles :=
  let pieceOffset := pieceIndex * t.pieceLength
  if t.isSingleFile then
    match st with
    | (fl, c) :: rest => (fl, writeAt c pieceOffset data) :: rest
    | [] => []
  else writeMulti pieceOffset data st 0 0

/-- `ReadPiece` (disk.go:975-1006): a buffer of `PieceSize pieceIndex`
zeros, filled from the one file (single-file) or via `readMultiFile`. -/
def readPiece (t : TorrentShape) (st : DiskFiles) (pieceIndex : Nat) : List Nat :=
  let actualLength := t.pieceSize pieceIndex
  let pieceOffset := pieceIndex * t.pieceLength
  if t.isSingleFile then
    match st with
    | (_, c) :: _ => readAt c pieceOffset actualLength
    | [] => List.replicate actualLength 0
  else readMulti pieceOffset st 0 0 (List.replicate actualLength 0)

/-! #### C5 — write-then-read round-trip

The loop invariant of `writeMultiFile`/`readMultiFile`: before the write
starts, `dataOff = 0` and the walk is at or before `offset`; once started,
writes are contiguous, so `curOff = offset + dataOff`. -/

lemma writeAt_length (c data : List Nat) (off : Nat)
    (h : off + data.length ≤ c.length) : (writeAt c off data).length = c.length := by
  simp [writeAt]
  omega

/-- What one `writeMultiFile` call does to the virtual stream: splice
`data.drop dataOff` over it at `offset - curOff` (requires positive file
lengths — a zero-length manifest entry would break the loop early — and
the piece range inside the stream). -/
lemma writeMulti_spec (offset : Nat) (data : List Nat) :
    ∀ (st : DiskFiles) (curOff dataOff : Nat),
    (∀ e ∈ st, e.2.length = e.1 ∧ 0 < e.1) →
    ((dataOff = 0 ∧ curOff ≤ offset) ∨ (offset ≤ curOff ∧ curOff = offset + dataOff)) →
    dataOff < data.length →
    offset + data.length ≤ curOff + (st.map Prod.fst).sum →
    (∀ e ∈ writeMulti offset data st curOff dataOff, e.2.length = e.1 ∧ 0 < e.1) ∧
    (writeMulti offset data st curOff dataOff).map Prod.fst = st.map Prod.fst ∧
    ((writeMulti offset data st curOff dataOff).map Prod.snd).flatten
      = ((st.map Prod.snd).flatten).take (offset - curOff)
        ++ data.drop dataOff
        ++ ((st.map Prod.snd).flatten).drop (offset - curOff + (data.length - dataOff)) := by
  intro st
  induction st with
  | nil =>
    intro curOff dataOff hwf hinv hlt hfit
    exfalso
    simp only [List.map_nil, List.sum_nil, Nat.add_zero] at hfit
    rcases hinv with ⟨h0, hle⟩ | ⟨hle, heq⟩ <;> omega
  | cons e rest ih =>
    obtain ⟨fl, c⟩ := e
    intro curOff dataOff hwf hinv hlt hfit
    obtain ⟨hclen, hflpos⟩ := hwf _ (List.mem_cons_self _ _)
    simp only at hclen hflpos
    have hwfr : ∀ e ∈ rest, e.2.length = e.1 ∧ 0 < e.1 :=
      fun e he => hwf e (List.mem_cons_of_mem _ he)
    simp only [List.map_cons, List.sum_cons] at hfit
    by_cases hskip : offset ≥ curOff + fl
    · -- the file lies wholly before the piece: skipped unchanged
      have hd0 : dataOff = 0 := by
        rcases hinv with ⟨h0, _⟩ | ⟨hle, heq⟩ <;> omega
      subst hd0
      obtain ⟨iwf, ilen, iflat⟩ := ih (curOff + fl) 0 hwfr (Or.inl ⟨rfl, hskip⟩)
        hlt (by omega)
      rw [show writeMulti offset data ((fl, c) :: rest) curOff 0
          = (fl, c) :: writeMulti offset data rest (curOff + fl) 0 by
        simp only [writeMulti]; rw [if_pos hskip]]
      refine ⟨?_, ?_, ?_⟩
      · intro e he
        rcases List.mem_cons.mp he with rfl | he2
        · exact ⟨hclen, hflpos⟩
        · exact iwf e he2
      · simp [ilen]
      · simp only [List.map_cons, List.flatten_cons]
        rw [iflat]
        rw [show offset - curOff = c.length + (offset - (curOff + fl)) by omega]
        rw [show c.length + (offset - (curOff + fl)) + (data.length - 0)
            = c.length + (offset - (curOff + fl) + (data.length - 0)) by omega]
        rw [List.take_append, List.drop_append]
        simp [List.append_assoc]
    · -- the piece intersects this file
      have hlt2 : offset < curOff + fl := not_le.mp hskip
      have hfws : (if offset > curOff then offset - curOff else 0) = offset - curOff := by
        rcases hinv with ⟨h0, hle⟩ | ⟨hle, heq⟩ <;> (split <;> omega)
      have hfwslt : offset - curOff < fl := by omega
      have hbtw : (if offset - curOff + (data.length - dataOff) > fl
            then fl - (offset - curOff) else data.length - dataOff)
          = min (fl - (offset - curOff)) (data.length - dataOff) := by
        split <;> omega
      have hwmeq : writeMulti offset data ((fl, c) :: rest) curOff dataOff
          = (if dataOff + min (fl - (offset - curOff)) (data.length - dataOff) ≥ data.length
             then (fl, writeAt c (offset - curOff) ((data.drop dataOff).take
               (min (fl - (offset - curOff)) (data.length - dataOff)))) :: rest
             else (fl, writeAt c (offset - curOff) ((data.drop dataOff).take
               (min (fl - (offset - curOff)) (data.length - dataOff)))) ::
               writeMulti offset data rest (curOff + fl)
                 (dataOff + min (fl - (offset - curOff)) (data.length - dataOff))) := by
        simp only [writeMulti]
        rw [if_neg hskip]
        rw [hfws, hbtw]
        rw [if_neg (by omega)]
      set btw := min (fl - (offset - curOff)) (data.length - dataOff) with hbtwdef
      have hbtwpos : 0 < btw := by omega
      have hbtwle : (offset - curOff) + btw ≤ fl := by omega
      have hbtwle2 : btw ≤ data.length - dataOff := by omega
      have hslicelen : ((data.drop dataOff).take btw).length = btw := by
        rw [List.length_take, List.length_drop]
        omega
      have hclen' : (writeAt c (offset - curOff) ((data.drop dataOff).take btw)).length
          = c.length := by
        apply writeAt_length
        rw [hslicelen]
        omega
      have hCsplit : writeAt c (offset - curOff) ((data.drop dataOff).take btw)
          = c.take (offset - curOff) ++ (data.drop dataOff).take btw
            ++ c.drop ((offset - curOff) + btw) := by
        unfold writeAt
        rw [hslicelen]
      by_cases hfin : dataOff + btw ≥ data.length
      · -- the write ends inside this file
        have hbtweq : btw = data.length - dataOff := by omega
        have htake : (data.drop dataOff).take btw = data.drop dataOff := by
          apply List.take_of_length_le
          rw [List.length_drop]
          omega
        rw [hwmeq, if_pos hfin]
        refine ⟨?_, by simp, ?_⟩
        · intro e he
          rcases List.mem_cons.mp he with rfl | he2
          · exact ⟨by rw [hclen', hclen], hflpos⟩
          · exact hwfr e he2
        · simp only [List.map_cons, List.flatten_cons]
          rw [hCsplit, htake]
          rw [show offset - curOff + (data.length - dataOff)
              = offset - curOff + btw by omega]
          rw [List.take_append_of_le_length (by omega),
              List.drop_append_of_le_length (by omega)]
          simp [List.append_assoc]
      · -- the data continues into the next file
        have hbtweq : btw = fl - (offset - curOff) := by omega
        have hfl : (offset - curOff) + btw = fl := by omega
        have hdropnil : c.drop ((offset - curOff) + btw) = [] := by
          rw [hfl, ← hclen, List.drop_length]
        have hinv' : (dataOff + btw = 0 ∧ curOff + fl ≤ offset) ∨
            (offset ≤ curOff + fl ∧ curOff + fl = offset + (dataOff + btw)) := by
          right
          constructor
          · omega
          · rcases hinv with ⟨h0, hle⟩ | ⟨hle, heq⟩ <;> omega
        obtain ⟨iwf, ilen, iflat⟩ := ih (curOff + fl) (dataOff + btw) hwfr hinv'
          (by omega) (by omega)
        rw [hwmeq, if_neg hfin]
        refine ⟨?_, by simp [ilen], ?_⟩
        · intro e he
          rcases List.mem_cons.mp he with rfl | he2
          · exact ⟨by rw [hclen', hclen], hflpos⟩
          · exact iwf e he2
        · simp only [List.map_cons, List.flatten_cons]
          rw [iflat, hCsplit, hdropnil]
          rw [show offset - (curOff + fl) = 0 by omega]
          simp only [List.take_zero, List.nil_append, List.append_nil, Nat.zero_add]
          rw [List.take_append_of_le_length (by omega)]
          rw [show offset - curOff + (data.length - dataOff)
              = c.length + (data.length - (dataOff + btw)) by omega]
          rw [List.drop_append]
          have hsplitdata : (data.drop dataOff).take btw ++ data.drop (dataOff + btw)
              = data.drop dataOff := by
            rw [show data.drop (dataOff + btw) = (data.drop dataOff).drop btw by
              rw [List.drop_drop]]
            rw [List.take_append_drop]
          simp only [List.append_assoc]
          rw [← List.append_assoc ((data.drop dataOff).take btw), hsplitdata]

lemma readAt_exact (c : List Nat) (off n : Nat) (h : off + n ≤ c.length) :
    readAt c off n = (c.drop off).take n := by
  unfold readAt
  have hl : ((c.drop off).take n).length = n := by
    rw [List.length_take, List.length_drop]
    omega
  dsimp only
  rw [hl, Nat.sub_self]
  simp

/-- What one `readMultiFile` call returns: the buffer with everything from
`dataOff` on replaced by the virtual stream's bytes starting at
`offset - curOff`. -/
lemma readMulti_spec (offset : Nat) :
    ∀ (st : DiskFiles) (curOff dataOff : Nat) (buf : List Nat),
    (∀ e ∈ st, e.2.length = e.1 ∧ 0 < e.1) →
    ((dataOff = 0 ∧ curOff ≤ offset) ∨ (offset ≤ curOff ∧ curOff = offset + dataOff)) →
    dataOff < buf.length →
    offset + buf.length ≤ curOff + (st.map Prod.fst).sum →
    readMulti offset st curOff dataOff buf
      = buf.take dataOff
        ++ (((st.map Prod.snd).flatten).drop (offset - curOff)).take (buf.length - dataOff) := by
  intro st
  induction st with
  | nil =>
    intro curOff dataOff buf hwf hinv hlt hfit
    exfalso
    simp only [List.map_nil, List.sum_nil, Nat.add_zero] at hfit
    rcases hinv with ⟨h0, hle⟩ | ⟨hle, heq⟩ <;> omega
  | cons e rest ih =>
    obtain ⟨fl, c⟩ := e
    intro curOff dataOff buf hwf hinv hlt hfit
    obtain ⟨hclen, hflpos⟩ := hwf _ (List.mem_cons_self _ _)
    simp only at hclen hflpos
    have hwfr : ∀ e ∈ rest, e.2.length = e.1 ∧ 0 < e.1 :=
      fun e he => hwf e (List.mem_cons_of_mem _ he)
    simp only [List.map_cons, List.sum_cons] at hfit
    by_cases hskip : offset ≥ curOff + fl
    · have hd0 : dataOff = 0 := by
        rcases hinv with ⟨h0, _⟩ | ⟨hle, heq⟩ <;> omega
      subst hd0
      rw [show readMulti offset ((fl, c) :: rest) curOff 0 buf
          = readMulti offset rest (curOff + fl) 0 buf by
        simp only [readMulti]; rw [if_pos hskip]]
      rw [ih (curOff + fl) 0 buf hwfr (Or.inl ⟨rfl, hskip⟩) hlt (by omega)]
      simp only [List.map_cons, List.flatten_cons]
      rw [show offset - curOff = c.length + (offset - (curOff + fl)) by omega]
      rw [List.drop_append]
    · have hlt2 : offset < curOff + fl := not_le.mp hskip
      have hfws : (if offset > curOff then offset - curOff else 0) = offset - curOff := by
        rcases hinv with ⟨h0, hle⟩ | ⟨hle, heq⟩ <;> (split <;> omega)
      have hfwslt : offset - curOff < fl := by omega
      have hbtr : (if offset - curOff + (buf.length - dataOff) > fl
            then fl - (offset - curOff) else buf.length - dataOff)
          = min (fl - (offset - curOff)) (buf.length - dataOff) := by
        split <;> omega
      have hrmeq : readMulti offset ((fl, c) :: rest) curOff dataOff buf
          = (if dataOff + min (fl - (offset - curOff)) (buf.length - dataOff) ≥ buf.length
             then buf.take dataOff ++ readAt c (offset - curOff)
               (min (fl - (offset - curOff)) (buf.length - dataOff))
               ++ buf.drop (dataOff + min (fl - (offset - curOff)) (buf.length - dataOff))
             else readMulti offset rest (curOff + fl)
               (dataOff + min (fl - (offset - curOff)) (buf.length - dataOff))
               (buf.take dataOff ++ readAt c (offset - curOff)
                 (min (fl - (offset - curOff)) (buf.length - dataOff))
                 ++ buf.drop (dataOff + min (fl - (offset - curOff)) (buf.length - dataOff)))) := by
        simp only [readMulti]
        rw [if_neg hskip]
        rw [hfws, hbtr]
        rw [if_neg (by omega)]
      set btr := min (fl - (offset - curOff)) (buf.length - dataOff) with hbtrdef
      have hbtrpos : 0 < btr := by omega
      have hbtrle : (offset - curOff) + btr ≤ fl := by omega
      have hbtrle2 : btr ≤ buf.length - dataOff := by omega
      have hread : readAt c (offset - curOff) btr = (c.drop (offset - curOff)).take btr :=
        readAt_exact _ _ _ (by omega)
      have hreadlen : ((c.drop (offset - curOff)).take btr).length = btr := by
        rw [List.length_take, List.length_drop]
        omega
      by_cases hfin : dataOff + btr ≥ buf.length
      · have hbtreq : btr = buf.length - dataOff := by omega
        have hdropnil : buf.drop (dataOff + btr) = [] := by
          rw [show dataOff + btr = buf.length by omega, List.drop_length]
        rw [hrmeq, if_pos hfin, hread, hdropnil]
        simp only [List.map_cons, List.flatten_cons, List.append_nil]
        rw [List.drop_append_of_le_length (by omega)]
        rw [List.take_append_of_le_length (by rw [List.length_drop]; omega)]
        rw [show buf.length - dataOff = btr by omega]
      · have hbtreq : btr = fl - (offset - curOff) := by omega
        have hbuflen : (buf.take dataOff ++ (c.drop (offset - curOff)).take btr
            ++ buf.drop (dataOff + btr)).length = buf.length := by
          simp only [List.length_append, List.length_take, List.length_drop, hreadlen]
          omega
        have hinv' : (dataOff + btr = 0 ∧ curOff + fl ≤ offset) ∨
            (offset ≤ curOff + fl ∧ curOff + fl = offset + (dataOff + btr)) := by
          right
          constructor
          · omega
          · rcases hinv with ⟨h0, hle⟩ | ⟨hle, heq⟩ <;> omega
        rw [hrmeq, if_neg hfin, hread]
        rw [ih (curOff + fl) (dataOff + btr) _ hwfr hinv' (by rw [hbuflen]; omega)
          (by rw [hbuflen]; omega)]
        rw [hbuflen]
        have htake : (buf.take dataOff ++ (c.drop (offset - curOff)).take btr
            ++ buf.drop (dataOff + btr)).take (dataOff + btr)
            = buf.take dataOff ++ (c.drop (offset - curOff)).take btr := by
          rw [show dataOff + btr
              = (buf.take dataOff ++ (c.drop (offset - curOff)).take btr).length + 0 by
            simp only [List.length_append, List.length_take, hreadlen]
            omega]
          rw [List.take_append]
          simp
        rw [htake]
        simp only [List.map_cons, List.flatten_cons]
        rw [show offset - (curOff + fl) = 0 by omega]
        simp only [List.drop_zero]
        rw [List.drop_append_of_le_length (by omega)]
        rw [show buf.length - dataOff
            = (c.drop (offset - curOff)).length + (buf.length - (dataOff + btr)) by
          rw [List.length_drop]
          omega]
        rw [List.take_append]
        rw [show (c.drop (offset - curOff)).take btr = c.drop (offset - curOff) from
          List.take_of_length_le (by rw [List.length_drop]; omega)]
        simp [List.append_assoc]

/-- Each valid piece is nonempty and lies inside the virtual stream, when
the piece count is `⌈total/pieceLength⌉` (the TorrentMeta invariant
`N = ⌈total/piece_len⌉`). -/
lemma pieceSize_fits (t : TorrentShape)
    (hpl : 0 < t.pieceLength)
    (hN : t.numPieces = (t.totalLength + t.pieceLength - 1) / t.pieceLength)
    (i : Nat) (hi : i < t.numPieces) :
    0 < t.pieceSize i ∧ i * t.pieceLength + t.pieceSize i ≤ t.totalLength := by
  have hq := Nat.div_add_mod t.totalLength t.pieceLength
  have hrlt : t.totalLength % t.pieceLength < t.pieceLength := Nat.mod_lt _ hpl
  unfold TorrentShape.pieceSize
  rw [if_neg (by omega)]
  by_cases hr0 : t.totalLength % t.pieceLength = 0
  · have hNq : t.numPieces = t.totalLength / t.pieceLength := by
      rw [hN]
      rw [show t.totalLength + t.pieceLength - 1
          = t.pieceLength * (t.totalLength / t.pieceLength) + (t.pieceLength - 1) by omega]
      rw [Nat.mul_add_div hpl,
        Nat.div_eq_of_lt (show t.pieceLength - 1 < t.pieceLength by omega), Nat.add_zero]
    by_cases hlast : i < t.numPieces - 1
    · rw [if_pos hlast]
      refine ⟨hpl, ?_⟩
      have h1 : i + 1 ≤ t.totalLength / t.pieceLength := by omega
      calc i * t.pieceLength + t.pieceLength = (i + 1) * t.pieceLength := by ring
        _ ≤ (t.totalLength / t.pieceLength) * t.pieceLength :=
            Nat.mul_le_mul_right _ h1
        _ = t.totalLength := by rw [Nat.mul_comm]; omega
    · rw [if_neg hlast]
      dsimp only
      rw [if_pos hr0]
      refine ⟨hpl, le_of_eq ?_⟩
      have h1 : i + 1 = t.totalLength / t.pieceLength := by omega
      calc i * t.pieceLength + t.pieceLength = (i + 1) * t.pieceLength := by ring
        _ = (t.totalLength / t.pieceLength) * t.pieceLength := by rw [h1]
        _ = t.totalLength := by rw [Nat.mul_comm]; omega
  · have hNq : t.numPieces = t.totalLength / t.pieceLength + 1 := by
      have hsplit : t.pieceLength * (t.totalLength / t.pieceLength + 1)
          = t.pieceLength * (t.totalLength / t.pieceLength) + t.pieceLength := by ring
      rw [hN]
      rw [show t.totalLength + t.pieceLength - 1
          = t.pieceLength * (t.totalLength / t.pieceLength + 1)
            + (t.totalLength % t.pieceLength - 1) by omega]
      rw [Nat.mul_add_div hpl,
        Nat.div_eq_of_lt (show t.totalLength % t.pieceLength - 1 < t.pieceLength by omega),
        Nat.add_zero]
    by_cases hlast : i < t.numPieces - 1
    · rw [if_pos hlast]
      refine ⟨hpl, ?_⟩
      have h1 : i + 1 ≤ t.totalLength / t.pieceLength := by omega
      calc i * t.pieceLength + t.pieceLength = (i + 1) * t.pieceLength := by ring
        _ ≤ (t.totalLength / t.pieceLength) * t.pieceLength :=
            Nat.mul_le_mul_right _ h1
        _ ≤ t.totalLength := by rw [Nat.mul_comm]; omega
    · rw [if_neg hlast]
      dsimp only
      rw [if_neg hr0]
      refine ⟨by omega, ?_⟩
      have h1 : i = t.totalLength / t.pieceLength := by omega
      have h2 : i * t.pieceLength = t.pieceLength * (t.totalLength / t.pieceLength) := by
        rw [h1, Nat.mul_comm]
      omega

lemma flatten_length_eq_sum (st : DiskFiles)
    (hwf : ∀ e ∈ st, e.2.length = e.1 ∧ 0 < e.1) :
    ((st.map Prod.snd).flatten).length = (st.map Prod.fst).sum := by
  induction st with
  | nil => rfl
  | cons e rest ih =>
    obtain ⟨fl, c⟩ := e
    obtain ⟨hclen, _⟩ := hwf _ (List.mem_cons_self _ _)
    simp only at hclen
    simp only [List.map_cons, List.flatten_cons, List.length_append, List.sum_cons]
    rw [hclen, ih (fun e he => hwf e (List.mem_cons_of_mem _ he))]

/-- C5: `WritePiece i data` followed by `ReadPiece i` returns `data`
exactly, for single- and multi-file torrents alike (including pieces that
span file boundaries), provided the disk state matches the manifest
(contents sized to the declared lengths, which are positive — `Parse`
drops zero-length manifest entries) and `numPieces = ⌈total/pieceLength⌉`
with `data` of the piece's exact size. -/
theorem C5_write_read_roundtrip (t : TorrentShape) (st : DiskFiles)
    (i : Nat) (data : List Nat)
    (hpl : 0 < t.pieceLength)
    (hN : t.numPieces = (t.totalLength + t.pieceLength - 1) / t.pieceLength)
    (hi : i < t.numPieces)
    (hd : data.length = t.pieceSize i)
    (hwf : ∀ e ∈ st, e.2.length = e.1 ∧ 0 < e.1)
    (hman : st.map Prod.fst = if t.isSingleFile then [t.length] else t.files) :
    readPiece t (writePiece t st i data) i = data := by
  obtain ⟨hpos, hfit⟩ := pieceSize_fits t hpl hN i hi
  by_cases hsf : t.isSingleFile
  · -- single-file: one pre-truncated file of the total length
    rw [if_pos hsf] at hman
    match st, hman with
    | [(fl, c)], hman =>
      obtain ⟨hclen, hflpos⟩ := hwf _ (List.mem_cons_self _ _)
      simp only at hclen hflpos
      have hfl : fl = t.length := by simpa using hman
      have hTl : t.totalLength = t.length := by
        unfold TorrentShape.totalLength
        rw [if_pos hsf]
      unfold writePiece readPiece
      rw [if_pos hsf, if_pos hsf]
      dsimp only
      have hwlen : (writeAt c (i * t.pieceLength) data).length = c.length :=
        writeAt_length _ _ _ (by omega)
      rw [readAt_exact _ _ _ (by rw [hwlen]; omega)]
      unfold writeAt
      rw [List.append_assoc]
      rw [List.drop_append_of_le_length (by rw [List.length_take]; omega)]
      rw [List.drop_eq_nil_of_le (by rw [List.length_take]; omega)]
      rw [List.nil_append, ← hd, List.take_left]
  · -- multi-file: the piece spans one or more manifest files
    rw [if_neg hsf] at hman
    have hsum : (st.map Prod.fst).sum = t.totalLength := by
      unfold TorrentShape.totalLength
      rw [if_neg hsf, hman]
    unfold writePiece readPiece
    rw [if_neg hsf, if_neg hsf]
    obtain ⟨wwf, wlen, wflat⟩ := writeMulti_spec (i * t.pieceLength) data st 0 0 hwf
      (Or.inl ⟨rfl, Nat.zero_le _⟩) (by omega) (by omega)
    have hVlen : ((st.map Prod.snd).flatten).length = t.totalLength := by
      rw [flatten_length_eq_sum st hwf, hsum]
    have hsum' : ((writeMulti (i * t.pieceLength) data st 0 0).map Prod.fst).sum
        = t.totalLength := by rw [wlen, hsum]
    rw [readMulti_spec (i * t.pieceLength) _ 0 0 _ wwf (Or.inl ⟨rfl, Nat.zero_le _⟩)
      (by rw [List.length_replicate]; omega)
      (by rw [List.length_replicate, hsum']; omega)]
    rw [List.take_zero, List.nil_append, List.length_replicate, Nat.sub_zero]
    rw [wflat]
    simp only [Nat.sub_zero]
    rw [List.append_assoc]
    rw [List.drop_append_of_le_length (by rw [List.length_take]; omega)]
    rw [List.drop_eq_nil_of_le (by rw [List.length_take]; omega)]
    rw [List.nil_append, List.drop_zero, ← hd, List.take_left]

/-- The S2-style scenario used as the C5 witness: files of 4, 4 and 2
bytes, piece length 6, so piece 0 spans the first-file boundary. -/
def c5T : TorrentShape :=
  { pieceLength := 6, length := 0, files := [4, 4, 2], numPieces := 2 }

/-- The zero-initialized disk state for `c5T`. -/
def c5St : DiskFiles :=
  [(4, List.replicate 4 0), (4, List.replicate 4 0), (2, List.replicate 2 0)]

/-- C5 witness: writing piece 0 (6 bytes, crossing into file b) then
reading it back returns the bytes exactly. -/
theorem C5_write_read_roundtrip_witness :
    readPiece c5T (writePiece c5T c5St 0 [1, 2, 3, 4, 5, 6]) 0 = [1, 2, 3, 4, 5, 6] :=
  C5_write_read_roundtrip c5T c5St 0 [1, 2, 3, 4, 5, 6]
    (by decide) (by decide) (by decide) (by decide)
    (by decide) (by decide)

/-! ### Bencode codec and the info-hash — `internal/bencode`, `internal/torrent`

`torrent.Parse` decodes the whole file into `map[string]interface{}`,
takes the `info` entry (asserting it is a dictionary), re-encodes it with
`bencode.Encode` and hashes the resulting bytes.  The decoded values are:
integers as `int64`, byte strings as Go strings, lists as `[]interface{}`
and dictionaries as `map[string]interface{}`; the encoder emits a map's
entries in ascending key order (it sorts the keys).  A Go map is
unordered, so the model represents it as an association list kept in
ascending byte-lexicographic key order — exactly the order the encoder
emits — with `mapSet` as `SetMapIndex` (an ordered, replace-on-equal
insert). -/

/-- A decoded bencode value (`interface{}` shapes of the decoder). -/
inductive BVal where
  | int (n : Int)
  | str (s : List Nat)
  | list (l : List BVal)
  | dict (d : List (List Nat × BVal))

/-- Go string `<` on byte strings: lexicographic. -/
def ltBytes : List Nat → List Nat → Bool
  | [], [] => false
  | [], _ :: _ => true
  | _ :: _, [] => false
  | a :: as, b :: bs => if a < b then true else if b < a then false else ltBytes as bs

/-- `reflect.Value.SetMapIndex` on the ordered-assoc-list map model:
replace an equal key, else insert in ascending `ltBytes` position. -/
def mapSet : List (List Nat × BVal) → List Nat → BVal → List (List Nat × BVal)
  | [], k, v => [(k, v)]
  | (k', v') :: rest, k, v =>
    if k = k' then (k, v) :: rest
    else if ltBytes k k' then (k, v) :: (k', v') :: rest
    else (k', v') :: mapSet rest k v

/-- Map lookup (`raw["info"]`). -/
def mapLookup : List (List Nat × BVal) → List Nat → Option BVal
  | [], _ => none
  | (k', v') :: rest, k => if k = k' then some v' else mapLookup rest k

/-- Decimal digits of a natural number as ASCII bytes (the digits
`fmt.Fprintf "%d"` produces for non-negative values). -/
def natDigits (n : Nat) : List Nat :=
  if _h : n < 10 then [48 + n]
  else natDigits (n / 10) ++ [48 + n % 10]
decreasing_by exact Nat.div_lt_self (by omega) (by omega)

/-- Go `%d` of an `int64`: minus sign and digits for negatives. -/
def intDigits (n : Int) : List Nat :=
  if n < 0 then 45 :: natDigits n.natAbs else natDigits n.toNat

mutual
/-- `Encoder.encode` (bencode.go:651-743) on decoded values:
`i<digits>e`, `<len>:<bytes>`, `l…e`, `d…e` with dict entries in
ascending key order (the source sorts the map keys; the model's dict is
stored in that order). -/
def encodeVal : BVal → List Nat
  | .int n => 105 :: intDigits n ++ [101]
  | .str s => natDigits s.length ++ 58 :: s
  | .list l => 108 :: encodeItems l ++ [101]
  | .dict d => 100 :: encodePairs d ++ [101]
def encodeItems : List BVal → List Nat
  | [] => []
  | v :: rest => encodeVal v ++ encodeItems rest
def encodePairs : List (List Nat × BVal) → List Nat
  | [] => []
  | (k, v) :: rest => (natDigits k.length ++ 58 :: k) ++ encodeVal v ++ encodePairs rest
end

/-- `'0' ≤ c ≤ '9'`. -/
def isDigit (c : Nat) : Bool := 48 ≤ c && c ≤ 57

/-- `Decoder.readUntil` (bencode.go:623-635): bytes strictly before the
delimiter, and the remainder after it. -/
def readUntil (delim : Nat) : List Nat → Option (List Nat × List Nat)
  | [] => none
  | c :: rest =>
    if c = delim then some ([], rest)
    else
      match readUntil delim rest with
      | none => none
      | some (a, b) => some (c :: a, b)

/-- The digit-string part of `strconv.ParseInt`: all decimal digits,
nonempty. -/
def parseNatDigits (s : List Nat) : Option Nat :=
  if s.isEmpty then none
  else if s.all isDigit then some (s.foldl (fun a c => a * 10 + (c - 48)) 0)
  else none

/-- `strconv.ParseInt(s, 10, 64)`: optional sign, digits, int64 range
(out-of-range input is an error). -/
def parseGoInt (s : List Nat) : Option Int :=
  match s with
  | [] => none
  | c :: rest =>
    if c = 45 then
      (parseNatDigits rest).bind fun n =>
        if n ≤ 2 ^ 63 then some (-(n : Int)) else none
    else if c = 43 then
      (parseNatDigits rest).bind fun n =>
        if n < 2 ^ 63 then some ((n : Int)) else none
    else
      (parseNatDigits (c :: rest)).bind fun n =>
        if n < 2 ^ 63 then some ((n : Int)) else none

/-- `decodeString` (bencode.go:391-424): digits up to `:`, a non-negative
length, then exactly that many bytes (`io.ReadFull` errors when the input
is short). -/
def decodeStr (s : List Nat) : Option (BVal × List Nat) :=
  match readUntil 58 s with
  | none => none
  | some (lds, rest) =>
    match parseGoInt lds with
    | none => none
    | some n =>
      if n < 0 then none
      else if rest.length < n.toNat then none
      else some (.str (rest.take n.toNat), rest.drop n.toNat)

mutual
/-- `Decoder.decode` into `interface{}` (bencode.go:340-366, 368-389,
426-468, 470-531), with a fuel bound (the Go reader recursion is bounded
by the input length; `parseInfoBytes` passes `length + 1`).  Dispatch on
the leading byte: `i` integer, `l` list, `d` dict, digit string. -/
def decodeVal : Nat → List Nat → Option (BVal × List Nat)
  | 0, _ => none
  | _ + 1, [] => none
  | f + 1, c :: s =>
    if c = 105 then
      match readUntil 101 s with
      | none => none
      | some (digits, rest) =>
        match parseGoInt digits with
        | none => none
        | some n => some (.int n, rest)
    else if c = 108 then
      match decodeItems f s with
      | none => none
      | some (l, rest) => some (.list l, rest)
    else if c = 100 then
      match decodePairs f [] s with
      | none => none
      | some (d, rest) => some (.dict d, rest)
    else if isDigit c then decodeStr (c :: s)
    else none
/-- The list-element loop of `decodeList`: elements until `e`. -/
def decodeItems : Nat → List Nat → Option (List BVal × List Nat)
  | 0, _ => none
  | _ + 1, [] => none
  | f + 1, c :: s =>
    if c = 101 then some ([], s)
    else
      match decodeVal f (c :: s) with
      | none => none
      | some (v, rest) =>
        match decodeItems f rest with
        | none => none
        | some (l, rest2) => some (v :: l, rest2)
/-- The key/value loop of `decodeDict`: string key (a non-string key is a
decode error in the source too), value, inserted with `SetMapIndex`. -/
def decodePairs : Nat → List (List Nat × BVal) → List Nat →
    Option (List (List Nat × BVal) × List Nat)
  | 0, _, _ => none
  | _ + 1, _, [] => none
  | f + 1, acc, c :: s =>
    if c = 101 then some (acc, s)
    else
      match decodeStr (c :: s) with
      | some (.str k, rest) =>
        match decodeVal f rest with
        | none => none
        | some (v, rest2) => decodePairs f (mapSet acc k v) rest2
      | _ => none
end

/-- Strictly ascending byte-string keys. -/
def keysAsc : List (List Nat) → Bool
  | [] => true
  | [_] => true
  | k1 :: k2 :: rest => ltBytes k1 k2 && keysAsc (k2 :: rest)

mutual
/-- A canonically bencoded value per BEP 3 (what "well-formed metainfo"
requires): integers in int64 range (they decode into `int64`), byte
strings short enough for their length to parse as `int64`, dictionary
keys strictly ascending.  `encodeVal` of such a value is its canonical
encoding. -/
def canonV : BVal → Bool
  | .int n => decide (-(2 ^ 63 : Int) ≤ n) && decide (n < (2 ^ 63 : Int))
  | .str s => decide (s.length < 2 ^ 63)
  | .list l => canonItems l
  | .dict d => keysAsc (d.map Prod.fst) && canonPairs d
def canonItems : List BVal → Bool
  | [] => true
  | v :: rest => canonV v && canonItems rest
def canonPairs : List (List Nat × BVal) → Bool
  | [] => true
  | (k, v) :: rest => decide (k.length < 2 ^ 63) && canonV v && canonPairs rest
end

mutual
/-- Node count, bounding the decoding fuel. -/
def sizeV : BVal → Nat
  | .int _ => 1
  | .str _ => 1
  | .list l => 1 + sizeItems l
  | .dict d => 1 + sizePairs d
def sizeItems : List BVal → Nat
  | [] => 0
  | v :: rest => 1 + sizeV v + sizeItems rest
def sizePairs : List (List Nat × BVal) → Nat
  | [] => 0
  | (_, v) :: rest => 1 + sizeV v + sizePairs rest
end

/-- The bytes `"info"`. -/
def infoKey : List Nat := [105, 110, 102, 111]

/-- `torrent.Parse`'s info-hash source bytes (torrent.go:61-90): decode
the metainfo into a map (the top level must be a dictionary), take the
`info` entry (which must itself be a dictionary), and re-encode it with
`bencode.Encode`; `sha1.Sum` is then taken over exactly these bytes.
Trailing bytes after the top-level value are ignored, as the Go decoder
never checks for EOF. -/
def parseInfoBytes (data : List Nat) : Option (List Nat) :=
  match decodeVal (data.length + 1) data with
  | some (.dict m, _) =>
    match mapLookup m infoKey with
    | some (.dict infoD) => some (encodeVal (.dict infoD))
    | _ => none
  | _ => none

/-! #### Round-trip of the codec on canonical values -/

lemma natDigits_mem : ∀ (n : Nat), ∀ c ∈ natDigits n, 48 ≤ c ∧ c ≤ 57 := by
  intro n
  induction n using Nat.strong_induction_on with
  | _ n ih =>
    intro c hc
    unfold natDigits at hc
    split at hc
    · simp only [List.mem_singleton] at hc
      omega
    · simp only [List.mem_append, List.mem_singleton] at hc
      rcases hc with hc | hc
      · exact ih (n / 10) (Nat.div_lt_self (by omega) (by omega)) c hc
      · have := Nat.mod_lt n (show 0 < 10 by omega)
        omega

lemma natDigits_ne_nil (n : Nat) : natDigits n ≠ [] := by
  unfold natDigits
  split
  · simp
  · simp

lemma natDigits_foldl : ∀ (n acc : Nat),
    (natDigits n).foldl (fun a c => a * 10 + (c - 48)) acc
      = acc * 10 ^ (natDigits n).length + n := by
  intro n
  induction n using Nat.strong_induction_on with
  | _ n ih =>
    intro acc
    by_cases h : n < 10
    · rw [natDigits, dif_pos h]
      simp only [List.foldl_cons, List.foldl_nil, List.length_singleton, pow_one]
      omega
    · rw [natDigits, dif_neg h]
      rw [List.foldl_append]
      rw [ih (n / 10) (Nat.div_lt_self (by omega) (by omega)) acc]
      simp only [List.foldl_cons, List.foldl_nil, List.length_append,
        List.length_singleton]
      have hmod := Nat.mod_lt n (show 0 < 10 by omega)
      have hdm := Nat.div_add_mod n 10
      rw [pow_succ]
      have : 48 + n % 10 - 48 = n % 10 := by omega
      rw [this]
      ring_nf
      omega

lemma parseNatDigits_natDigits (n : Nat) : parseNatDigits (natDigits n) = some n := by
  have hne := natDigits_ne_nil n
  have h1 : (natDigits n).isEmpty = false := by
    simpa [List.isEmpty_iff] using hne
  have h2 : (natDigits n).all isDigit = true := by
    rw [List.all_eq_true]
    intro c hc
    have := natDigits_mem n c hc
    simp only [isDigit, Bool.and_eq_true, decide_eq_true_eq]
    omega
  unfold parseNatDigits
  rw [h1, h2]
  simp only [Bool.false_eq_true, if_false, if_true, Option.some.injEq]
  have := natDigits_foldl n 0
  simpa using this

lemma readUntil_spec (delim : Nat) : ∀ (a b : List Nat), (∀ c ∈ a, c ≠ delim) →
    readUntil delim (a ++ delim :: b) = some (a, b) := by
  intro a
  induction a with
  | nil =>
    intro b _
    simp [readUntil]
  | cons c t ih =>
    intro b h
    have hc : c ≠ delim := h c (List.mem_cons_self _ _)
    simp only [List.cons_append, readUntil, if_neg hc, List.append_eq]
    simp only [ih b (fun x hx => h x (List.mem_cons_of_mem _ hx))]

lemma parseGoInt_natDigits (n : Nat) (hn : n < 2 ^ 63) :
    parseGoInt (natDigits n) = some (n : Int) := by
  obtain ⟨c, s, hcs⟩ := List.exists_cons_of_ne_nil (natDigits_ne_nil n)
  have hcd := natDigits_mem n c (by rw [hcs]; exact List.mem_cons_self _ _)
  rw [hcs]
  simp only [parseGoInt]
  rw [if_neg (by omega), if_neg (by omega), ← hcs, parseNatDigits_natDigits,
    Option.some_bind, if_pos hn]

lemma parseGoInt_intDigits (n : Int) (h1 : -(2 ^ 63 : Int) ≤ n) (h2 : n < 2 ^ 63) :
    parseGoInt (intDigits n) = some n := by
  unfold intDigits
  split
  · simp only [parseGoInt, if_true]
    rw [parseNatDigits_natDigits, Option.some_bind,
      if_pos (show n.natAbs ≤ 2 ^ 63 by omega)]
    simp only [Option.some.injEq]
    omega
  · rw [parseGoInt_natDigits n.toNat (by omega)]
    simp only [Option.some.injEq]
    omega

lemma intDigits_mem : ∀ (n : Int), ∀ c ∈ intDigits n, c = 45 ∨ (48 ≤ c ∧ c ≤ 57) := by
  intro n c hc
  unfold intDigits at hc
  split at hc
  · rcases List.mem_cons.mp hc with rfl | hc
    · exact .inl rfl
    · exact .inr (natDigits_mem _ c hc)
  · exact .inr (natDigits_mem _ c hc)

lemma decodeStr_round (s rest : List Nat) (hlen : s.length < 2 ^ 63) :
    decodeStr (natDigits s.length ++ 58 :: (s ++ rest)) = some (.str s, rest) := by
  have hru : readUntil 58 (natDigits s.length ++ 58 :: (s ++ rest))
      = some (natDigits s.length, s ++ rest) :=
    readUntil_spec 58 _ _ (fun c hc => by have := natDigits_mem _ c hc; omega)
  simp only [decodeStr, hru, parseGoInt_natDigits s.length hlen]
  rw [if_neg (by omega), Int.toNat_natCast,
    if_neg (by simp only [List.length_append]; omega),
    List.take_left, List.drop_left]

lemma ltBytes_irrefl : ∀ a, ltBytes a a = false := by
  intro a
  induction a with
  | nil => rfl
  | cons c t ih => simp [ltBytes, ih]

lemma ltBytes_asymm : ∀ a b, ltBytes a b = true → ltBytes b a = false := by
  intro a
  induction a with
  | nil =>
    intro b hb
    cases b with
    | nil => simp [ltBytes] at hb
    | cons d u => rfl
  | cons c t ih =>
    intro b hb
    cases b with
    | nil => simp [ltBytes] at hb
    | cons d u =>
      by_cases h1 : c < d
      · simp [ltBytes, Nat.lt_asymm h1, h1]
      · by_cases h2 : d < c
        · simp [ltBytes, h1, h2] at hb
        · have hcd : c = d := by omega
          subst hcd
          simp only [ltBytes, Nat.lt_irrefl, if_false] at hb ⊢
          exact ih u hb

lemma ltBytes_trans : ∀ a b c, ltBytes a b = true → ltBytes b c = true →
    ltBytes a c = true := by
  intro a
  induction a with
  | nil =>
    intro b c hab hbc
    cases b with
    | nil => simp [ltBytes] at hab
    | cons y u =>
      cases c with
      | nil => simp [ltBytes] at hbc
      | cons z w => rfl
  | cons x t ih =>
    intro b c hab hbc
    cases b with
    | nil => simp [ltBytes] at hab
    | cons y u =>
      cases c with
      | nil => simp [ltBytes] at hbc
      | cons z w =>
        simp only [ltBytes] at hab hbc ⊢
        by_cases hxy : x < y
        · by_cases hyz : y < z
          · simp [Nat.lt_trans hxy hyz]
          · by_cases hzy : z < y
            · simp [hyz, hzy] at hbc
            · have : y = z := by omega
              subst this
              simp [hxy]
        · by_cases hyx : y < x
          · simp [hxy, hyx] at hab
          · have : x = y := by omega
            subst this
            simp only [Nat.lt_irrefl, if_false] at hab
            by_cases hxz : x < z
            · simp [hxz]
            · by_cases hzx : z < x
              · simp [hxz, hzx] at hbc
              · have : x = z := by omega
                subst this
                simp only [Nat.lt_irrefl, if_false] at hbc ⊢
                exact ih u w hab hbc

lemma keysAsc_pairwise : ∀ (d : List (List Nat × BVal)),
    keysAsc (d.map Prod.fst) = true →
    List.Pairwise (fun a b : List Nat × BVal => ltBytes a.1 b.1 = true) d := by
  intro d
  induction d with
  | nil => intro _; exact List.Pairwise.nil
  | cons e t ih =>
    cases t with
    | nil => intro _; simp
    | cons e2 t2 =>
      intro h
      simp only [List.map_cons, keysAsc, Bool.and_eq_true] at h
      obtain ⟨h1, h2⟩ := h
      have hp := ih (by simpa [keysAsc] using h2)
      refine List.pairwise_cons.mpr ⟨?_, hp⟩
      intro e' he'
      rcases List.mem_cons.mp he' with rfl | he'
      · exact h1
      · exact ltBytes_trans _ _ _ h1 ((List.pairwise_cons.mp hp).1 e' he')

lemma mapSet_append : ∀ (acc : List (List Nat × BVal)) (k : List Nat) (v : BVal),
    (∀ e ∈ acc, ltBytes e.1 k = true) → mapSet acc k v = acc ++ [(k, v)] := by
  intro acc
  induction acc with
  | nil => intro k v _; rfl
  | cons e t ih =>
    intro k v hall
    obtain ⟨k', v'⟩ := e
    have hk' : ltBytes k' k = true := hall (k', v') (List.mem_cons_self _ _)
    have hne : ¬(k = k') := by
      intro heq
      subst heq
      rw [ltBytes_irrefl] at hk'
      exact Bool.false_ne_true hk'
    simp only [mapSet, if_neg hne]
    rw [if_neg (by rw [ltBytes_asymm _ _ hk']; exact Bool.false_ne_true),
      ih k v (fun e he => hall e (List.mem_cons_of_mem _ he))]
    rfl

mutual
lemma sizeV_lt_encode : ∀ v : BVal, sizeV v + 1 ≤ (encodeVal v).length
  | .int n => by
      simp only [sizeV, encodeVal, List.length_cons, List.length_append,
        List.length_singleton]
      omega
  | .str s => by
      have h := List.length_pos.mpr (natDigits_ne_nil s.length)
      simp only [sizeV, encodeVal, List.length_append, List.length_cons]
      omega
  | .list l => by
      have h := sizeItems_le_encode l
      simp only [sizeV, encodeVal, List.length_cons, List.length_append,
        List.length_singleton]
      omega
  | .dict d => by
      have h := sizePairs_le_encode d
      simp only [sizeV, encodeVal, List.length_cons, List.length_append,
        List.length_singleton]
      omega
lemma sizeItems_le_encode : ∀ l : List BVal, sizeItems l ≤ (encodeItems l).length
  | [] => by simp [sizeItems, encodeItems]
  | v :: t => by
      have h1 := sizeV_lt_encode v
      have h2 := sizeItems_le_encode t
      simp only [sizeItems, encodeItems, List.length_append]
      omega
lemma sizePairs_le_encode : ∀ d : List (List Nat × BVal),
    sizePairs d ≤ (encodePairs d).length
  | [] => by simp [sizePairs, encodePairs]
  | (k, v) :: t => by
      have h1 := sizeV_lt_encode v
      have h2 := sizePairs_le_encode t
      simp only [sizePairs, encodePairs, List.length_append, List.length_cons]
      omega
end

lemma encodeVal_head : ∀ v : BVal, ∃ c s, encodeVal v = c :: s ∧
    (c = 105 ∨ c = 108 ∨ c = 100 ∨ (48 ≤ c ∧ c ≤ 57)) := by
  intro v
  cases v with
  | int n => exact ⟨105, _, rfl, .inl rfl⟩
  | str s =>
    obtain ⟨c, t, hct⟩ := List.exists_cons_of_ne_nil (natDigits_ne_nil s.length)
    have hcd := natDigits_mem s.length c (by rw [hct]; exact List.mem_cons_self _ _)
    exact ⟨c, t ++ 58 :: s, by rw [encodeVal, hct]; rfl, .inr (.inr (.inr hcd))⟩
  | list l => exact ⟨108, _, rfl, .inr (.inl rfl)⟩
  | dict d => exact ⟨100, _, rfl, .inr (.inr (.inl rfl))⟩

lemma decode_encode_aux : ∀ f : Nat,
    (∀ v rest, canonV v = true → sizeV v < f →
      decodeVal f (encodeVal v ++ rest) = some (v, rest)) ∧
    (∀ l rest, canonItems l = true → sizeItems l < f →
      decodeItems f (encodeItems l ++ 101 :: rest) = some (l, rest)) ∧
    (∀ d acc rest, canonPairs d = true →
      List.Pairwise (fun a b : List Nat × BVal => ltBytes a.1 b.1 = true) (acc ++ d) →
      sizePairs d < f →
      decodePairs f acc (encodePairs d ++ 101 :: rest) = some (acc ++ d, rest)) := by
  intro f
  induction f with
  | zero =>
    exact ⟨fun v rest _ h => absurd h (by omega),
      fun l rest _ h => absurd h (by omega),
      fun d acc rest _ _ h => absurd h (by omega)⟩
  | succ f ih =>
    obtain ⟨ihV, ihI, ihP⟩ := ih
    refine ⟨?_, ?_, ?_⟩
    · intro v rest hc hs
      cases v with
      | int n =>
        simp only [canonV, Bool.and_eq_true, decide_eq_true_eq] at hc
        have he : encodeVal (.int n) ++ rest = 105 :: (intDigits n ++ 101 :: rest) := by
          simp [encodeVal, List.append_assoc]
        rw [he]
        simp only [decodeVal, if_true]
        have hru : readUntil 101 (intDigits n ++ 101 :: rest) = some (intDigits n, rest) :=
          readUntil_spec 101 _ _ (fun c hc => by have := intDigits_mem n c hc; omega)
        simp only [hru, parseGoInt_intDigits n hc.1 hc.2]
      | str s =>
        simp only [canonV, decide_eq_true_eq] at hc
        have he : encodeVal (.str s) ++ rest
            = natDigits s.length ++ 58 :: (s ++ rest) := by
          simp [encodeVal, List.append_assoc]
        rw [he]
        obtain ⟨c, t, hct⟩ := List.exists_cons_of_ne_nil (natDigits_ne_nil s.length)
        have hcd := natDigits_mem s.length c (by rw [hct]; exact List.mem_cons_self _ _)
        rw [hct, List.cons_append]
        simp only [decodeVal]
        rw [if_neg (by omega), if_neg (by omega), if_neg (by omega),
          if_pos (by simp only [isDigit, Bool.and_eq_true, decide_eq_true_eq]; omega)]
        rw [← List.cons_append, ← hct]
        exact decodeStr_round s rest hc
      | list l =>
        simp only [canonV] at hc
        have he : encodeVal (.list l) ++ rest = 108 :: (encodeItems l ++ 101 :: rest) := by
          simp [encodeVal, List.append_assoc]
        rw [he]
        simp only [decodeVal, if_true]
        have hd := ihI l rest hc (by simp only [sizeV] at hs; omega)
        simp only [hd]
        rw [if_neg (by omega)]
      | dict d =>
        simp only [canonV, Bool.and_eq_true] at hc
        have he : encodeVal (.dict d) ++ rest = 100 :: (encodePairs d ++ 101 :: rest) := by
          simp [encodeVal, List.append_assoc]
        rw [he]
        simp only [decodeVal, if_true]
        have hpw := keysAsc_pairwise d hc.1
        have hd := ihP d [] rest hc.2 (by simpa using hpw)
          (by simp only [sizeV] at hs; omega)
        simp only [List.nil_append] at hd
        simp only [hd]
        rw [if_neg (by omega), if_neg (by omega)]
    · intro l rest hc hs
      cases l with
      | nil =>
        simp only [encodeItems, List.nil_append, decodeItems, if_true]
      | cons v t =>
        simp only [canonItems, Bool.and_eq_true] at hc
        obtain ⟨c, s, hcs, hcr⟩ := encodeVal_head v
        have he : encodeItems (v :: t) ++ 101 :: rest
            = c :: (s ++ (encodeItems t ++ 101 :: rest)) := by
          simp only [encodeItems, List.append_assoc, hcs, List.cons_append]
        rw [he]
        simp only [decodeItems]
        rw [if_neg (by omega)]
        have hv := ihV v (encodeItems t ++ 101 :: rest) hc.1
          (by simp only [sizeItems] at hs; omega)
        rw [show c :: (s ++ (encodeItems t ++ 101 :: rest))
            = encodeVal v ++ (encodeItems t ++ 101 :: rest) by rw [hcs]; rfl]
        simp only [hv]
        have ht := ihI t rest hc.2 (by simp only [sizeItems] at hs; omega)
        simp only [ht]
    · intro d acc rest hc hpw hs
      cases d with
      | nil =>
        simp only [encodePairs, List.nil_append, decodePairs, if_true,
          List.append_nil]
      | cons e t =>
        obtain ⟨k, v⟩ := e
        simp only [canonPairs, Bool.and_eq_true, decide_eq_true_eq] at hc
        obtain ⟨⟨hklen, hcv⟩, hct⟩ := hc
        obtain ⟨c, s0, hcs⟩ := List.exists_cons_of_ne_nil (natDigits_ne_nil k.length)
        have hcd := natDigits_mem k.length c (by rw [hcs]; exact List.mem_cons_self _ _)
        have he : encodePairs ((k, v) :: t) ++ 101 :: rest
            = c :: (s0 ++ (58 :: (k ++ (encodeVal v ++ (encodePairs t ++ 101 :: rest))))) := by
          simp only [encodePairs, hcs, List.append_assoc, List.cons_append]
        rw [he]
        simp only [decodePairs]
        rw [if_neg (by omega)]
        have hds : decodeStr
            (c :: (s0 ++ (58 :: (k ++ (encodeVal v ++ (encodePairs t ++ 101 :: rest))))))
            = some (.str k, encodeVal v ++ (encodePairs t ++ 101 :: rest)) := by
          rw [show c :: (s0 ++ (58 :: (k ++ (encodeVal v ++ (encodePairs t ++ 101 :: rest)))))
              = natDigits k.length
                ++ 58 :: (k ++ (encodeVal v ++ (encodePairs t ++ 101 :: rest)))
            by rw [hcs]; rfl]
          exact decodeStr_round k _ hklen
        simp only [hds]
        have hv := ihV v (encodePairs t ++ 101 :: rest) hcv
          (by simp only [sizePairs] at hs; omega)
        simp only [hv]
        have hall : ∀ e ∈ acc, ltBytes e.1 k = true := by
          intro e hea
          exact (List.pairwise_append.mp hpw).2.2 e hea (k, v) (List.mem_cons_self _ _)
        have hms := mapSet_append acc k v hall
        have hpw' : List.Pairwise (fun a b : List Nat × BVal => ltBytes a.1 b.1 = true)
            ((acc ++ [(k, v)]) ++ t) := by
          rw [List.append_assoc]
          simpa using hpw
        have ht := ihP t (acc ++ [(k, v)]) rest hct hpw'
          (by simp only [sizePairs] at hs; omega)
        rw [hms, ht]
        simp [List.append_assoc]

lemma mapLookup_mem : ∀ (m : List (List Nat × BVal)) k v,
    mapLookup m k = some v → (k, v) ∈ m := by
  intro m k v
  induction m with
  | nil => intro h; simp [mapLookup] at h
  | cons e t ih =>
    obtain ⟨k', v'⟩ := e
    intro h
    simp only [mapLookup] at h
    by_cases hk : k = k'
    · rw [if_pos hk] at h
      injection h with h
      subst hk
      subst h
      exact List.mem_cons_self _ _
    · rw [if_neg hk] at h
      exact List.mem_cons_of_mem _ (ih h)

lemma encodePairs_infix_of_mem : ∀ (d : List (List Nat × BVal)) (k : List Nat) (v : BVal),
    (k, v) ∈ d → ∃ pre post, encodePairs d = pre ++ encodeVal v ++ post := by
  intro d
  induction d with
  | nil => intro k v h; simp at h
  | cons e t ih =>
    intro k v hm
    rcases List.mem_cons.mp hm with heq | hm'
    · obtain ⟨k', v'⟩ := e
      injection heq with h1 h2
      subst h1
      subst h2
      exact ⟨natDigits k.length ++ 58 :: k, encodePairs t, by
        simp [encodePairs, List.append_assoc]⟩
    · obtain ⟨pre, post, hpp⟩ := ih k v hm'
      obtain ⟨k', v'⟩ := e
      exact ⟨(natDigits k'.length ++ 58 :: k') ++ encodeVal v' ++ pre, post, by
        simp [encodePairs, hpp, List.append_assoc]⟩

/-- C7: for a well-formed (canonically bencoded, per BEP 3) metainfo whose
top-level dictionary maps `info` to a dictionary, the bytes `torrent.Parse`
feeds to `sha1.Sum` — the `bencode.Encode` re-serialization of the decoded
`info` value — are exactly `encodeVal` of that dictionary, which occurs
byte-identically inside the input: the re-serialization the InfoHash is
computed over is byte-identical to the source bytes of the info
dictionary. -/
theorem C7_infohash_reserialization (m infoD : List (List Nat × BVal))
    (hc : canonV (.dict m) = true)
    (hlook : mapLookup m infoKey = some (.dict infoD)) :
    parseInfoBytes (encodeVal (.dict m)) = some (encodeVal (.dict infoD)) ∧
    List.IsInfix (encodeVal (.dict infoD)) (encodeVal (.dict m)) := by
  constructor
  · unfold parseInfoBytes
    have hsz := sizeV_lt_encode (.dict m)
    have hdec := (decode_encode_aux ((encodeVal (.dict m)).length + 1)).1
      (.dict m) [] hc (by omega)
    rw [List.append_nil] at hdec
    simp only [hdec, hlook]
  · obtain ⟨pre, post, hpp⟩ :=
      encodePairs_infix_of_mem m infoKey (.dict infoD) (mapLookup_mem m _ _ hlook)
    refine ⟨100 :: pre, post ++ [101], ?_⟩
    show (100 :: pre) ++ encodeVal (.dict infoD) ++ (post ++ [101])
        = encodeVal (.dict m)
    rw [show encodeVal (.dict m) = 100 :: encodePairs m ++ [101] from rfl, hpp]
    simp [List.append_assoc]

/-- The info dictionary of the witness metainfo:
`{"length": 5, "name": "a"}` (keys ascending). -/
def c7Info : List (List Nat × BVal) :=
  [([108, 101, 110, 103, 116, 104], .int 5), ([110, 97, 109, 101], .str [97])]

/-- A small canonical metainfo dictionary:
`{"announce": "u", "info": c7Info}` (keys ascending). -/
def c7Meta : List (List Nat × BVal) :=
  [([97, 110, 110, 111, 117, 110, 99, 101], .str [117]), (infoKey, .dict c7Info)]

theorem C7_infohash_reserialization_witness :
    parseInfoBytes (encodeVal (.dict c7Meta)) = some (encodeVal (.dict c7Info)) ∧
    List.IsInfix (encodeVal (.dict c7Info)) (encodeVal (.dict c7Meta)) :=
  C7_infohash_reserialization c7Meta c7Info
    (by simp [canonV, canonItems, canonPairs, keysAsc, ltBytes, c7Meta, c7Info, infoKey])
    rfl

end BT
